import Mathlib

/-!
Verification of the AI form-filling core of the repository
(`src/routes/ai.js`): the field validator `validateFields`, the response
parser `parseJsonResponse`, and the completion step of the `/ai/assist`
handler.  JavaScript values are shallowly embedded as the inductive type
`JsValue`; JavaScript exceptions are modelled with `Option` (a fallible
operation returns `none` where the JavaScript code would throw), and the
source functions are translated operation by operation.

Modelling notes, stated once here:
* JavaScript numbers are IEEE doubles; this development models only the
  integer-valued numbers that the form schema and the JSON payloads of this
  program use (`JsValue.num : Int`).  The JSON-number parser accordingly
  accepts exactly the integer literals of the JSON grammar and reports
  `none` on fraction or exponent parts rather than silently misreading
  them.
* `JSON.parse` escape sequences `\uXXXX` denoting UTF-16 surrogate halves
  are not representable in Lean `Char` and are reported as `none`.
* Member access `x.k` on `null`/`undefined` throws in JavaScript; in this
  embedding `jsGet` returns `JsValue.undefined` there.  Every use of
  `jsGet` in the translated code sits behind the same truthiness or typeof
  guard as the corresponding JavaScript member access, so the difference is
  unobservable.
-/

/-- A JavaScript/JSON value: `undefined`, `null`, booleans, (integer)
numbers, strings, arrays, and objects as ordered key/value lists. -/
inductive JsValue where
  | undefined : JsValue
  | null : JsValue
  | bool : Bool → JsValue
  | num : Int → JsValue
  | str : String → JsValue
  | arr : List JsValue → JsValue
  | obj : List (String × JsValue) → JsValue
deriving Repr

/-- JavaScript `typeof` on the embedded values. -/
def jsTypeof : JsValue → String
  | .undefined => "undefined"
  | .null => "object"
  | .bool _ => "boolean"
  | .num _ => "number"
  | .str _ => "string"
  | .arr _ => "object"
  | .obj _ => "object"

/-- JavaScript truthiness of the embedded values. -/
def jsTruthy : JsValue → Bool
  | .undefined => false
  | .null => false
  | .bool b => b
  | .num n => decide (n ≠ 0)
  | .str s => decide (s ≠ "")
  | .arr _ => true
  | .obj _ => true

/-- JavaScript member access `v.k`: on an object the value stored under the
key (last occurrence wins, as when the object was built by `JSON.parse`),
`undefined` for a missing key and on every non-object. -/
def jsGet (v : JsValue) (k : String) : JsValue :=
  match v with
  | .obj ps =>
    match ps.reverse.find? (fun p => p.1 == k) with
    | some p => p.2
    | none => .undefined
  | _ => .undefined

/-- The whitespace class used by JavaScript `String.prototype.trim` and by
the regex class `\s`: ASCII whitespace plus the Unicode space separators,
line separators and the BOM. -/
def jsWsChar (c : Char) : Bool :=
  let n := c.toNat
  n == 9 || n == 10 || n == 11 || n == 12 || n == 13 || n == 32 ||
  n == 0xA0 || n == 0x1680 || (0x2000 ≤ n && n ≤ 0x200A) ||
  n == 0x2028 || n == 0x2029 || n == 0x202F || n == 0x205F ||
  n == 0x3000 || n == 0xFEFF

/-- Drop the longest run of `p`-satisfying characters at the end of a
list. -/
def dropTrailingWhile (p : Char → Bool) : List Char → List Char
  | [] => []
  | c :: rest =>
    match dropTrailingWhile p rest with
    | [] => if p c then [] else [c]
    | r => c :: r

/-- `String.prototype.trim` on character lists. -/
def trimChars (cs : List Char) : List Char :=
  dropTrailingWhile jsWsChar (cs.dropWhile jsWsChar)

/-- JavaScript `text.trim()`. -/
def jsTrim (s : String) : String := ⟨trimChars s.data⟩

/-- Value of a base-10 digit string (most significant digit first). -/
def digitsToNat (ds : List Char) : Nat :=
  ds.foldl (fun a c => a * 10 + (c.toNat - 48)) 0

/-- JavaScript `parseInt(s, 10)`: skip leading whitespace, read an optional
sign and then the longest prefix of decimal digits; `none` models the `NaN`
result when no digit is found. -/
def jsParseInt (s : String) : Option Int :=
  let cs := s.data.dropWhile jsWsChar
  let signed : Bool × List Char :=
    match cs with
    | '-' :: r => (true, r)
    | '+' :: r => (false, r)
    | _ => (false, cs)
  let ds := signed.2.takeWhile (fun c => c.isDigit)
  if ds.isEmpty then none
  else some (if signed.1 then -(digitsToNat ds : Int) else (digitsToNat ds : Int))

/-! ## The field schema (`fieldOptions` in `src/routes/ai.js`) -/

namespace fieldOptions

def institutions : List String :=
  ["Industry", "Academia", "Health services", "Government"]

/-- `fieldOptions.roles[i] || []`. -/
def roles (i : String) : List String :=
  if i = "Industry" then ["Management", "R&D", "QA", "Production"]
  else if i = "Academia" then ["Professor", "Researcher", "Lecturer", "Graduate Student"]
  else if i = "Health services" then ["Physician", "Nurse", "Pharmacist", "Allied Health"]
  else if i = "Government" then ["Policy", "Research", "Regulatory", "Administration"]
  else []

/-- `fieldOptions.positions[i] || []`. -/
def positions (i : String) : List String :=
  if i = "Industry" then ["Executive", "Manager", "Staff"]
  else if i = "Academia" then ["Senior", "Junior", "Postdoc"]
  else if i = "Health services" then ["Senior", "Junior", "Resident"]
  else if i = "Government" then ["Senior", "Mid-level", "Junior"]
  else []

def accommodations : List Int := [1, 2, 3, 4]

end fieldOptions

/-! ## The field validator (`validateFields` in `src/routes/ai.js`) -/

/-- The seven-key record shape of the `validated` object built by
`validateFields`: exactly the keys `full_name`, `email`, `city`,
`institution`, `role`, `position`, `accommodation`, in source order. -/
def mkRecord (fn e c i r p a : JsValue) : JsValue :=
  .obj [("full_name", fn), ("email", e), ("city", c), ("institution", i),
        ("role", r), ("position", p), ("accommodation", a)]

/-- The all-`null` record that `validateFields` initialises `validated`
with (and returns unchanged for a missing or non-object input). -/
def allNullFields : JsValue :=
  mkRecord .null .null .null .null .null .null .null

/-- One simple string field of `validateFields`:
`if (typeof v === "string" && v.trim()) validated.x = v.trim()`. -/
def validateStringField : JsValue → JsValue
  | .str s => if jsTrim s = "" then .null else .str (jsTrim s)
  | _ => .null

/-- The accommodation branch of `validateFields`: a string input is coerced
with `parseInt(v, 10)` first, then the (possibly coerced) value is accepted
iff it is a number contained in `fieldOptions.accommodations`;
`jsParseInt = none` models the `NaN` coercion result, which fails the
membership test. -/
def coerceAccommodation : JsValue → JsValue
  | .str s =>
    match jsParseInt s with
    | some n => if n ∈ fieldOptions.accommodations then .num n else .null
    | none => .null
  | .num n => if n ∈ fieldOptions.accommodations then .num n else .null
  | _ => .null

/-- The institution test of `validateFields`:
`typeof fields.institution === "string" &&
fieldOptions.institutions.includes(fields.institution)`; `some` carries the
accepted institution that the dependent `role`/`position` checks are then
evaluated against. -/
def institutionAccepted (fields : JsValue) : Option String :=
  match jsGet fields "institution" with
  | .str s => if s ∈ fieldOptions.institutions then some s else none
  | _ => none

/-- The `institution` slot of the validated record. -/
def institutionField (fields : JsValue) : JsValue :=
  match institutionAccepted fields with
  | some s => .str s
  | none => .null

/-- The `role` slot: evaluated only inside the institution branch, against
`fieldOptions.roles[validated.institution] || []`. -/
def roleField (fields : JsValue) : JsValue :=
  match institutionAccepted fields with
  | some i =>
    match jsGet fields "role" with
    | .str r => if r ∈ fieldOptions.roles i then .str r else .null
    | _ => .null
  | none => .null

/-- The `position` slot: same dependency rule with
`fieldOptions.positions`. -/
def positionField (fields : JsValue) : JsValue :=
  match institutionAccepted fields with
  | some i =>
    match jsGet fields "position" with
    | .str p => if p ∈ fieldOptions.positions i then .str p else .null
    | _ => .null
  | none => .null

/-- The body of `validateFields` after the `!fields || typeof fields !==
"object"` early return. -/
def validateFieldsCore (fields : JsValue) : JsValue :=
  mkRecord
    (validateStringField (jsGet fields "full_name"))
    (validateStringField (jsGet fields "email"))
    (validateStringField (jsGet fields "city"))
    (institutionField fields)
    (roleField fields)
    (positionField fields)
    (coerceAccommodation (jsGet fields "accommodation"))

/-- `validateFields` from `src/routes/ai.js` (lines 124-179). -/
def validateFields (fields : JsValue) : JsValue :=
  if !(jsTruthy fields) || !(jsTypeof fields == "object") then allNullFields
  else validateFieldsCore fields

/-! ## A model of `JSON.parse`

A fuel-indexed recursive-descent parser for the JSON grammar over character
lists.  The fuel only bounds the nesting of values; `jsonParseChars` passes
`length + 1`, which is always sufficient because every recursive step
consumes at least one character first. -/

/-- JSON insignificant whitespace (RFC 8259): space, tab, LF, CR. -/
def isJsonWs (c : Char) : Bool :=
  c == ' ' || c == '\t' || c == '\n' || c == '\r'

/-- Value of one hexadecimal digit character. -/
def hexVal (c : Char) : Option Nat :=
  let n := c.toNat
  if 48 ≤ n ∧ n ≤ 57 then some (n - 48)
  else if 97 ≤ n ∧ n ≤ 102 then some (n - 87)
  else if 65 ≤ n ∧ n ≤ 70 then some (n - 55)
  else none

/-- Value of the four hex digits of a `\uXXXX` escape. -/
def hexQuad (h1 h2 h3 h4 : Char) : Option Nat :=
  match hexVal h1, hexVal h2, hexVal h3, hexVal h4 with
  | some a, some b, some c, some d => some (a * 4096 + b * 256 + c * 16 + d)
  | _, _, _, _ => none

/-- Parse the body of a JSON string after the opening quote, returning the
decoded characters and the input after the closing quote.  Raw control
characters are rejected as in the JSON grammar; `\uXXXX` escapes in the
surrogate range are rejected (see the header note). -/
def parseStrChars : List Char → Option (List Char × List Char)
  | [] => none
  | c :: rest =>
    if c = '"' then some ([], rest)
    else if c = '\\' then
      match rest with
      | '"' :: r => (parseStrChars r).map (fun p => ('"' :: p.1, p.2))
      | '\\' :: r => (parseStrChars r).map (fun p => ('\\' :: p.1, p.2))
      | '/' :: r => (parseStrChars r).map (fun p => ('/' :: p.1, p.2))
      | 'b' :: r => (parseStrChars r).map (fun p => (Char.ofNat 8 :: p.1, p.2))
      | 'f' :: r => (parseStrChars r).map (fun p => (Char.ofNat 12 :: p.1, p.2))
      | 'n' :: r => (parseStrChars r).map (fun p => ('\n' :: p.1, p.2))
      | 'r' :: r => (parseStrChars r).map (fun p => ('\r' :: p.1, p.2))
      | 't' :: r => (parseStrChars r).map (fun p => ('\t' :: p.1, p.2))
      | 'u' :: h1 :: h2 :: h3 :: h4 :: r =>
        (match hexQuad h1 h2 h3 h4 with
         | some code =>
           if 0xD800 ≤ code ∧ code ≤ 0xDFFF then none
           else (parseStrChars r).map (fun p => (Char.ofNat code :: p.1, p.2))
         | none => none)
      | _ => none
    else if c.toNat < 32 then none
    else (parseStrChars rest).map (fun p => (c :: p.1, p.2))

/-- Parse a JSON number literal (integer part only, see the header note):
optional minus, then `0` or a nonzero-led digit run; a following `.`, `e`
or `E` (a fraction or exponent, i.e. a non-integer number) yields `none`. -/
def parseNum (cs : List Char) : Option (JsValue × List Char) :=
  let neg : Bool := cs.head? == some '-'
  let cs1 : List Char := if neg then cs.tail else cs
  let ds := cs1.takeWhile (fun c => c.isDigit)
  let rest := cs1.dropWhile (fun c => c.isDigit)
  if ds.isEmpty then none
  else if ds.head? = some '0' ∧ 1 < ds.length then none
  else
    match rest with
    | '.' :: _ => none
    | 'e' :: _ => none
    | 'E' :: _ => none
    | _ =>
      some (.num (if neg then -(digitsToNat ds : Int) else (digitsToNat ds : Int)), rest)

mutual

/-- Parse one JSON value, skipping leading whitespace, returning the value
and the unconsumed input. -/
def parseVal : Nat → List Char → Option (JsValue × List Char)
  | 0, _ => none
  | fuel + 1, cs =>
    match cs.dropWhile isJsonWs with
    | 'n' :: 'u' :: 'l' :: 'l' :: rest => some (.null, rest)
    | 't' :: 'r' :: 'u' :: 'e' :: rest => some (.bool true, rest)
    | 'f' :: 'a' :: 'l' :: 's' :: 'e' :: rest => some (.bool false, rest)
    | '"' :: rest =>
      (match parseStrChars rest with
       | some (s, r) => some (.str ⟨s⟩, r)
       | none => none)
    | '[' :: rest =>
      (match parseItems fuel rest with
       | some (vs, r) => some (.arr vs, r)
       | none =>
         match rest.dropWhile isJsonWs with
         | ']' :: r => some (.arr [], r)
         | _ => none)
    | '\x7b' :: rest =>
      (match parseMembers fuel rest with
       | some (ps, r) => some (.obj ps, r)
       | none =>
         match rest.dropWhile isJsonWs with
         | '\x7d' :: r => some (.obj [], r)
         | _ => none)
    | other => parseNum other

/-- Parse the comma-separated elements of a nonempty JSON array up to and
including the closing bracket. -/
def parseItems : Nat → List Char → Option (List JsValue × List Char)
  | 0, _ => none
  | fuel + 1, cs =>
    match parseVal fuel cs with
    | none => none
    | some (v, r) =>
      match r.dropWhile isJsonWs with
      | ',' :: r2 =>
        (match parseItems fuel r2 with
         | some (vs, r3) => some (v :: vs, r3)
         | none => none)
      | ']' :: r2 => some ([v], r2)
      | _ => none

/-- Parse the comma-separated members of a nonempty JSON object up to and
including the closing brace. -/
def parseMembers : Nat → List Char → Option (List (String × JsValue) × List Char)
  | 0, _ => none
  | fuel + 1, cs =>
    match cs.dropWhile isJsonWs with
    | '"' :: cs1 =>
      (match parseStrChars cs1 with
       | none => none
       | some (k, r1) =>
         match r1.dropWhile isJsonWs with
         | ':' :: r2 =>
           (match parseVal fuel r2 with
            | none => none
            | some (v, r3) =>
              match r3.dropWhile isJsonWs with
              | ',' :: r4 =>
                (match parseMembers fuel r4 with
                 | some (ps, r5) => some ((⟨k⟩, v) :: ps, r5)
                 | none => none)
              | '\x7d' :: r4 => some ([(⟨k⟩, v)], r4)
              | _ => none)
         | _ => none)
    | _ => none

end

/-- `JSON.parse` on a character list: parse one value and require that only
whitespace follows; `none` models the thrown `SyntaxError`. -/
def jsonParseChars (cs : List Char) : Option JsValue :=
  match parseVal (cs.length + 1) cs with
  | some (v, rest) => if (rest.dropWhile isJsonWs).isEmpty then some v else none
  | none => none

/-- `JSON.parse` on strings. -/
def jsonParse (s : String) : Option JsValue := jsonParseChars s.data

/-! ## A model of the two regular expressions of `parseJsonResponse` -/

/-- The backtick character. -/
def backtickChar : Char := Char.ofNat 96

/-- Whether the list starts with three consecutive backticks (an opening or
closing fence of the code-block regex). -/
def fenceAt (cs : List Char) : Bool :=
  cs.take 3 == [backtickChar, backtickChar, backtickChar]

/-- Whether a character list contains three consecutive backticks. -/
def hasTriple : List Char → Bool
  | [] => false
  | c :: rest => fenceAt (c :: rest) || hasTriple rest

/-- Scan for the first triple backtick; return the characters before it and
the characters after it. -/
def findClose : List Char → Option (List Char × List Char)
  | [] => none
  | c :: rest =>
    if fenceAt (c :: rest) then some ([], rest.drop 2)
    else
      match findClose rest with
      | some (g, r) => some (c :: g, r)
      | none => none

/-- The optional `json` tag after the opening fence: `(?:json)?`. -/
def dropJsonTag (cs : List Char) : List Char :=
  if cs.take 4 = "json".data then cs.drop 4 else cs

/-- Group 1 of `text.match(/` three backticks `(?:json)?\s*([\s\S]*?)` three
backticks `/)`: at the first opening fence, skip the optional `json` tag and
the following whitespace run, then take the (lazy, i.e. shortest) group up
to the next closing fence; if no closing fence follows, the regex engine
retries from the next position. -/
def codeBlockGroup : List Char → Option (List Char)
  | [] => none
  | c :: rest =>
    if fenceAt (c :: rest) then
      match findClose ((dropJsonTag (rest.drop 2)).dropWhile jsWsChar) with
      | some g => some g.1
      | none => codeBlockGroup rest
    else codeBlockGroup rest

/-- Longest prefix ending with the last `\x7d` of the list, or `none` if
the list has no `\x7d`. -/
def upToLastRB : List Char → Option (List Char)
  | [] => none
  | c :: rest =>
    match upToLastRB rest with
    | some r => some (c :: r)
    | none => if c = '\x7d' then some ['\x7d'] else none

/-- The match of `jsonStr.match(/\x7b[\s\S]*\x7d/)` (the literal
characters are an opening and a closing brace): from the first opening
brace greedily through the last closing brace. -/
def braceSpan : List Char → Option (List Char)
  | [] => none
  | c :: rest =>
    if c = '\x7b' then
      match upToLastRB rest with
      | some r => some ('\x7b' :: r)
      | none => braceSpan rest
    else braceSpan rest

/-! ## The response parser (`parseJsonResponse` in `src/routes/ai.js`) -/

/-- The candidate string of `parseJsonResponse`: the trimmed interior of
the first fenced code block when the text has one, otherwise the trimmed
whole text
(`const jsonStr = codeBlockMatch ? codeBlockMatch[1].trim() : text.trim()`). -/
def candidateOf (text : String) : List Char :=
  match codeBlockGroup text.data with
  | some g => trimChars g
  | none => trimChars text.data

/-- `parseJsonResponse` from `src/routes/ai.js` (lines 187-208): on a falsy
(empty) text return `null`; otherwise try `JSON.parse` on the candidate,
and on failure try `JSON.parse` on the brace span of the candidate; every
`JSON.parse` failure is caught, so the function never throws. -/
def parseJsonResponse (text : String) : Option JsValue :=
  if text = "" then none
  else
    match jsonParseChars (candidateOf text) with
    | some v => some v
    | none =>
      match braceSpan (candidateOf text) with
      | some sub => jsonParseChars sub
      | none => none

/-- `parseJsonResponse` applied to an arbitrary JavaScript value, for the
falsy-input guard `if (!text) return null`: `some r` means the call returns
`r`, the outer `none` means the call would throw (member access `.match` on
a truthy non-string). -/
def parseJsonResponseV (v : JsValue) : Option (Option JsValue) :=
  if !(jsTruthy v) then some none
  else
    match v with
    | .str s => some (parseJsonResponse s)
    | _ => none

/-! ## The completion step of the `/ai/assist` handler -/

/-- The terminal `result` event payload of the `/ai/assist` stream:
`fields` is either `JsValue.null` or a validated record, `message` is the
accompanying value (a string in the degraded branch). -/
structure ResultEvent where
  fields : JsValue
  message : JsValue
deriving Repr

/-- The default message used when the parsed object has no truthy
`message`. -/
def defaultMessage : String := "I\x27ve updated the form based on your input."

/-- The fallback message used when the raw response trims to the empty
string. -/
def fallbackMessage : String :=
  "I couldn\x27t understand that. Please describe yourself for the registration form."

/-- The completion step of the `/ai/assist` handler
(`src/routes/ai.js` lines 467-485): `parsedOrNull` is
`const parsed = parseJsonResponse(fullResponse)` (the JavaScript `null`
failure result embedded as `JsValue.null`); `assistResult` parses the
accumulated text and, if the parse result and its `fields` member are
truthy, emits the validated fields with the parsed (or default) message,
otherwise emits `fields: null` with the trimmed raw text (or the fallback
message when that is empty). -/
def parsedOrNull (fullResponse : String) : JsValue :=
  match parseJsonResponse fullResponse with
  | some v => v
  | none => .null

/-- The `if (parsed && parsed.fields)` branch of the completion step. -/
def assistResult (fullResponse : String) : ResultEvent :=
  if jsTruthy (parsedOrNull fullResponse)
      && jsTruthy (jsGet (parsedOrNull fullResponse) "fields") then
    { fields := validateFields (jsGet (parsedOrNull fullResponse) "fields"),
      message :=
        if jsTruthy (jsGet (parsedOrNull fullResponse) "message") then
          jsGet (parsedOrNull fullResponse) "message"
        else .str defaultMessage }
  else
    { fields := .null,
      message :=
        .str (if jsTrim fullResponse = "" then fallbackMessage
              else jsTrim fullResponse) }

/-! ## A model of `JSON.stringify` (no spacing argument)

Needed for the round-trip property of the Response Parser.  It is defined
for JSON-serializable values; `JsValue.undefined` (which JSON.stringify
drops from objects and renders as `null` in arrays) is rendered as `null`
and excluded by the `noUndef` hypothesis of every theorem that uses
`stringifyChars`. -/

/-- The character of one decimal digit. -/
def digitChar (d : Nat) : Char := Char.ofNat (48 + d)

/-- Decimal digits of a natural number, most significant first. -/
def natDigits (n : Nat) : List Char :=
  if n < 10 then [digitChar n]
  else natDigits (n / 10) ++ [digitChar (n % 10)]
decreasing_by exact Nat.div_lt_self (by omega) (by omega)

/-- Decimal rendering of an integer. -/
def intChars (n : Int) : List Char :=
  if n < 0 then '-' :: natDigits n.natAbs else natDigits n.natAbs

/-- Lowercase hexadecimal digit, as emitted by `JSON.stringify` in `\u00xx`
escapes. -/
def hexDigit (d : Nat) : Char :=
  if d < 10 then Char.ofNat (48 + d) else Char.ofNat (87 + d)

/-- The escape of one character in a `JSON.stringify` string literal. -/
def escapeChar (c : Char) : List Char :=
  if c = '"' then ['\\', '"']
  else if c = '\\' then ['\\', '\\']
  else if c.toNat = 8 then ['\\', 'b']
  else if c.toNat = 9 then ['\\', 't']
  else if c.toNat = 10 then ['\\', 'n']
  else if c.toNat = 12 then ['\\', 'f']
  else if c.toNat = 13 then ['\\', 'r']
  else if c.toNat < 32 then
    ['\\', 'u', '0', '0', hexDigit (c.toNat / 16), hexDigit (c.toNat % 16)]
  else [c]

/-- Escaped body of a `JSON.stringify` string literal. -/
def escChars (cs : List Char) : List Char := (cs.map escapeChar).flatten

mutual

/-- `JSON.stringify` (compact form) over character lists. -/
def stringifyChars : JsValue → List Char
  | .undefined => 'n' :: 'u' :: 'l' :: 'l' :: []
  | .null => 'n' :: 'u' :: 'l' :: 'l' :: []
  | .bool true => 't' :: 'r' :: 'u' :: 'e' :: []
  | .bool false => 'f' :: 'a' :: 'l' :: 's' :: 'e' :: []
  | .num n => intChars n
  | .str s => '"' :: (escChars s.data ++ ['"'])
  | .arr vs => '[' :: (stringifyItems vs ++ [']'])
  | .obj ps => '\x7b' :: (stringifyMembers ps ++ ['\x7d'])

/-- Comma-separated renderings of array elements. -/
def stringifyItems : List JsValue → List Char
  | [] => []
  | [v] => stringifyChars v
  | v :: vs => stringifyChars v ++ ',' :: stringifyItems vs

/-- Comma-separated renderings of object members. -/
def stringifyMembers : List (String × JsValue) → List Char
  | [] => []
  | [(k, v)] => '"' :: (escChars k.data ++ '"' :: ':' :: stringifyChars v)
  | (k, v) :: ps =>
    ('"' :: (escChars k.data ++ '"' :: ':' :: stringifyChars v)) ++ ',' :: stringifyMembers ps

end

/-- `JSON.stringify` on strings. -/
def jsonStringify (v : JsValue) : String := ⟨stringifyChars v⟩

mutual

/-- A value is JSON-serializable in this model when it contains no
`undefined` anywhere (JavaScript objects additionally cannot carry
duplicate keys, but duplicate keys round-trip exactly in this embedding,
so no condition on them is needed). -/
def noUndef : JsValue → Bool
  | .undefined => false
  | .null => true
  | .bool _ => true
  | .num _ => true
  | .str _ => true
  | .arr vs => noUndefItems vs
  | .obj ps => noUndefMembers ps

def noUndefItems : List JsValue → Bool
  | [] => true
  | v :: vs => noUndef v && noUndefItems vs

def noUndefMembers : List (String × JsValue) → Bool
  | [] => true
  | (_, v) :: ps => noUndef v && noUndefMembers ps

end

mutual

/-- Structural size of a value: a lower bound for the parser fuel needed
to reparse its rendering. -/
def jsize : JsValue → Nat
  | .undefined => 1
  | .null => 1
  | .bool _ => 1
  | .num _ => 1
  | .str _ => 1
  | .arr vs => 1 + jsizeItems vs
  | .obj ps => 1 + jsizeMembers ps

def jsizeItems : List JsValue → Nat
  | [] => 0
  | v :: vs => 1 + jsize v + jsizeItems vs

def jsizeMembers : List (String × JsValue) → Nat
  | [] => 0
  | (_, v) :: ps => 1 + jsize v + jsizeMembers ps

end

/-! ## Basic lemmas: trimming and record access -/

theorem dropTrailingWhile_snoc (p : Char → Bool) (l : List Char) (c : Char) :
    dropTrailingWhile p (l ++ [c]) =
      if p c then dropTrailingWhile p l else l ++ [c] := by
  induction l with
  | nil => simp [dropTrailingWhile]
  | cons x xs ih =>
    simp only [List.cons_append, dropTrailingWhile, ih]
    by_cases h : p c <;> simp [h] <;> split <;> simp_all [dropTrailingWhile]

theorem dropTrailingWhile_cons (p : Char → Bool) (c : Char) (rest : List Char) :
    dropTrailingWhile p (c :: rest) =
      match dropTrailingWhile p rest with
      | [] => if p c then [] else [c]
      | r => c :: r := rfl

theorem dropTrailingWhile_cons_nil (p : Char → Bool) (c : Char) (rest : List Char)
    (hr : dropTrailingWhile p rest = []) :
    dropTrailingWhile p (c :: rest) = if p c then [] else [c] := by
  rw [dropTrailingWhile_cons, hr]

theorem dropTrailingWhile_cons_cons (p : Char → Bool) (c x : Char) (rest xs : List Char)
    (hr : dropTrailingWhile p rest = x :: xs) :
    dropTrailingWhile p (c :: rest) = c :: x :: xs := by
  rw [dropTrailingWhile_cons, hr]

theorem dropTrailingWhile_idem (p : Char → Bool) (l : List Char) :
    dropTrailingWhile p (dropTrailingWhile p l) = dropTrailingWhile p l := by
  induction l with
  | nil => rfl
  | cons c rest ih =>
    cases hr : dropTrailingWhile p rest with
    | nil =>
      rw [dropTrailingWhile_cons_nil p c rest hr]
      cases h : p c with
      | true => simp [dropTrailingWhile]
      | false =>
        simp only [Bool.false_eq_true, if_false]
        rw [dropTrailingWhile_cons_nil p c [] rfl, h]
        simp
    | cons x xs =>
      rw [dropTrailingWhile_cons_cons p c x rest xs hr]
      rw [hr] at ih
      exact dropTrailingWhile_cons_cons p c x (x :: xs) xs ih

theorem head?_dropTrailingWhile (p : Char → Bool) (l : List Char) :
    dropTrailingWhile p l = [] ∨ (dropTrailingWhile p l).head? = l.head? := by
  cases l with
  | nil => exact Or.inl rfl
  | cons c rest =>
    cases hr : dropTrailingWhile p rest with
    | nil =>
      rw [dropTrailingWhile_cons_nil p c rest hr]
      cases h : p c with
      | true => exact Or.inl (by simp)
      | false => exact Or.inr (by simp)
    | cons x xs =>
      rw [dropTrailingWhile_cons_cons p c x rest xs hr]
      exact Or.inr rfl

theorem dropWhile_head_done (p : Char → Bool) (l : List Char)
    (h : ∀ c, l.head? = some c → p c = false) : l.dropWhile p = l := by
  cases l with
  | nil => rfl
  | cons c rest => simp [List.dropWhile_cons, h c rfl]

theorem head?_dropWhile_false (p : Char → Bool) (l : List Char) (c : Char)
    (h : (l.dropWhile p).head? = some c) : p c = false := by
  induction l with
  | nil => simp at h
  | cons x xs ih =>
    rw [List.dropWhile_cons] at h
    cases hx : p x with
    | true =>
      rw [hx] at h
      exact ih (by simpa using h)
    | false =>
      rw [hx] at h
      simp only [Bool.false_eq_true, if_false, List.head?_cons, Option.some.injEq] at h
      subst h
      exact hx

theorem trimChars_idem (cs : List Char) : trimChars (trimChars cs) = trimChars cs := by
  unfold trimChars
  have hd : ((cs.dropWhile jsWsChar).dropWhile jsWsChar) = cs.dropWhile jsWsChar := by
    apply dropWhile_head_done
    intro c hc
    exact head?_dropWhile_false jsWsChar cs c hc
  rcases head?_dropTrailingWhile jsWsChar (cs.dropWhile jsWsChar) with h | h
  · rw [h]; rfl
  · have hdd : (dropTrailingWhile jsWsChar (cs.dropWhile jsWsChar)).dropWhile jsWsChar
        = dropTrailingWhile jsWsChar (cs.dropWhile jsWsChar) := by
      apply dropWhile_head_done
      intro c hc
      exact head?_dropWhile_false jsWsChar cs c (h ▸ hc)
    rw [hdd, dropTrailingWhile_idem]

theorem jsTrim_idem (s : String) : jsTrim (jsTrim s) = jsTrim s := by
  unfold jsTrim
  exact congrArg String.mk (trimChars_idem s.data)

/-- Record access on the seven-slot validated object, one lemma per key. -/
theorem jsGet_mkRecord_full_name (fn e c i r p a : JsValue) :
    jsGet (mkRecord fn e c i r p a) "full_name" = fn := rfl

theorem jsGet_mkRecord_email (fn e c i r p a : JsValue) :
    jsGet (mkRecord fn e c i r p a) "email" = e := rfl

theorem jsGet_mkRecord_city (fn e c i r p a : JsValue) :
    jsGet (mkRecord fn e c i r p a) "city" = c := rfl

theorem jsGet_mkRecord_institution (fn e c i r p a : JsValue) :
    jsGet (mkRecord fn e c i r p a) "institution" = i := rfl

theorem jsGet_mkRecord_role (fn e c i r p a : JsValue) :
    jsGet (mkRecord fn e c i r p a) "role" = r := rfl

theorem jsGet_mkRecord_position (fn e c i r p a : JsValue) :
    jsGet (mkRecord fn e c i r p a) "position" = p := rfl

theorem jsGet_mkRecord_accommodation (fn e c i r p a : JsValue) :
    jsGet (mkRecord fn e c i r p a) "accommodation" = a := rfl

/-! ## Legality of the validated record (the Field Validator claims) -/

/-- Schema legality of a free-text slot: `null` or a nonempty trimmed
string. -/
def legalFreeText (v : JsValue) : Prop :=
  v = .null ∨ ∃ s : String, v = .str s ∧ jsTrim s = s ∧ s ≠ ""

/-- Schema legality of the `institution` slot. -/
def legalInstitution (v : JsValue) : Prop :=
  v = .null ∨ ∃ s, v = .str s ∧ s ∈ fieldOptions.institutions

/-- Schema legality of a slot that depends on the record's institution
(`role` against `fieldOptions.roles`, `position` against
`fieldOptions.positions`). -/
def legalDependent (table : String → List String) (inst v : JsValue) : Prop :=
  v = .null ∨
    ∃ i r, inst = .str i ∧ i ∈ fieldOptions.institutions ∧ v = .str r ∧ r ∈ table i

/-- Schema legality of the `accommodation` slot. -/
def legalAccommodation (v : JsValue) : Prop :=
  v = .null ∨ ∃ n, v = .num n ∧ n ∈ fieldOptions.accommodations

theorem validateStringField_legal (v : JsValue) : legalFreeText (validateStringField v) := by
  cases v with
  | str s =>
    by_cases h : jsTrim s = ""
    · rw [validateStringField, if_pos h]
      exact Or.inl rfl
    · rw [validateStringField, if_neg h]
      exact Or.inr ⟨jsTrim s, rfl, jsTrim_idem s, h⟩
  | undefined => exact Or.inl rfl
  | null => exact Or.inl rfl
  | bool b => exact Or.inl rfl
  | num n => exact Or.inl rfl
  | arr vs => exact Or.inl rfl
  | obj ps => exact Or.inl rfl

theorem institutionAccepted_mem (f : JsValue) (i : String)
    (h : institutionAccepted f = some i) : i ∈ fieldOptions.institutions := by
  unfold institutionAccepted at h
  cases hg : jsGet f "institution" with
  | str s =>
    rw [hg] at h
    simp only at h
    by_cases hm : s ∈ fieldOptions.institutions
    · rw [if_pos hm] at h
      cases h
      exact hm
    · rw [if_neg hm] at h
      cases h
  | undefined => rw [hg] at h; exact Option.noConfusion h
  | null => rw [hg] at h; exact Option.noConfusion h
  | bool b => rw [hg] at h; exact Option.noConfusion h
  | num n => rw [hg] at h; exact Option.noConfusion h
  | arr vs => rw [hg] at h; exact Option.noConfusion h
  | obj ps => rw [hg] at h; exact Option.noConfusion h

theorem institutionField_legal (x : JsValue) : legalInstitution (institutionField x) := by
  unfold institutionField
  cases h : institutionAccepted x with
  | none => exact Or.inl rfl
  | some i => exact Or.inr ⟨i, rfl, institutionAccepted_mem x i h⟩

theorem roleField_legal (x : JsValue) :
    legalDependent fieldOptions.roles (institutionField x) (roleField x) := by
  unfold roleField institutionField
  cases h : institutionAccepted x with
  | none => exact Or.inl rfl
  | some i =>
    cases hr : jsGet x "role" with
    | str r =>
      simp only
      by_cases hm : r ∈ fieldOptions.roles i
      · rw [if_pos hm]
        exact Or.inr ⟨i, r, rfl, institutionAccepted_mem x i h, rfl, hm⟩
      · rw [if_neg hm]
        exact Or.inl rfl
    | undefined => exact Or.inl rfl
    | null => exact Or.inl rfl
    | bool b => exact Or.inl rfl
    | num n => exact Or.inl rfl
    | arr vs => exact Or.inl rfl
    | obj ps => exact Or.inl rfl

theorem positionField_legal (x : JsValue) :
    legalDependent fieldOptions.positions (institutionField x) (positionField x) := by
  unfold positionField institutionField
  cases h : institutionAccepted x with
  | none => exact Or.inl rfl
  | some i =>
    cases hr : jsGet x "position" with
    | str r =>
      simp only
      by_cases hm : r ∈ fieldOptions.positions i
      · rw [if_pos hm]
        exact Or.inr ⟨i, r, rfl, institutionAccepted_mem x i h, rfl, hm⟩
      · rw [if_neg hm]
        exact Or.inl rfl
    | undefined => exact Or.inl rfl
    | null => exact Or.inl rfl
    | bool b => exact Or.inl rfl
    | num n => exact Or.inl rfl
    | arr vs => exact Or.inl rfl
    | obj ps => exact Or.inl rfl

theorem coerceAccommodation_legal (v : JsValue) :
    legalAccommodation (coerceAccommodation v) := by
  cases v with
  | str s =>
    unfold coerceAccommodation
    simp only
    cases hp : jsParseInt s with
    | none => exact Or.inl rfl
    | some n =>
      simp only
      by_cases hm : n ∈ fieldOptions.accommodations
      · rw [if_pos hm]
        exact Or.inr ⟨n, rfl, hm⟩
      · rw [if_neg hm]
        exact Or.inl rfl
  | num n =>
    unfold coerceAccommodation
    simp only
    by_cases hm : n ∈ fieldOptions.accommodations
    · rw [if_pos hm]
      exact Or.inr ⟨n, rfl, hm⟩
    · rw [if_neg hm]
      exact Or.inl rfl
  | undefined => exact Or.inl rfl
  | null => exact Or.inl rfl
  | bool b => exact Or.inl rfl
  | arr vs => exact Or.inl rfl
  | obj ps => exact Or.inl rfl

/-! ## Helper lemmas about the validator as a whole -/

/-- A falsy or non-object input takes the early return. -/
theorem validateFields_guard (x : JsValue)
    (h : jsTruthy x = false ∨ jsTypeof x ≠ "object") :
    validateFields x = allNullFields := by
  unfold validateFields
  rcases h with h | h
  · rw [h]
    rfl
  · have hb : (jsTypeof x == "object") = false := by
      cases hbeq : (jsTypeof x == "object")
      · rfl
      · exact absurd (eq_of_beq hbeq) h
    rw [hb]
    simp

/-- A truthy object input takes the main branch. -/
theorem validateFields_core_eq (x : JsValue)
    (h1 : jsTruthy x = true) (h2 : jsTypeof x = "object") :
    validateFields x = validateFieldsCore x := by
  unfold validateFields
  rw [h1, h2]
  rfl

/-- Shape and legality of every `validateFields` output (shared by the
claims below). -/
theorem validateFields_shape (x : JsValue) :
    ∃ fn e c i r p a,
      validateFields x = mkRecord fn e c i r p a ∧
      legalFreeText fn ∧ legalFreeText e ∧ legalFreeText c ∧
      legalInstitution i ∧ legalDependent fieldOptions.roles i r ∧
      legalDependent fieldOptions.positions i p ∧ legalAccommodation a := by
  cases hg : (!(jsTruthy x) || !(jsTypeof x == "object")) with
  | true =>
    have hv : validateFields x = allNullFields := by
      unfold validateFields
      rw [hg]
      rfl
    exact ⟨.null, .null, .null, .null, .null, .null, .null, hv,
      Or.inl rfl, Or.inl rfl, Or.inl rfl, Or.inl rfl, Or.inl rfl, Or.inl rfl, Or.inl rfl⟩
  | false =>
    have hv : validateFields x = validateFieldsCore x := by
      unfold validateFields
      rw [hg]
      rfl
    exact ⟨_, _, _, _, _, _, _, hv, validateStringField_legal _, validateStringField_legal _,
      validateStringField_legal _, institutionField_legal x, roleField_legal x,
      positionField_legal x, coerceAccommodation_legal _⟩

/-- A legal free-text slot is a fixed point of the string-field check. -/
theorem validateStringField_fix (v : JsValue) (h : legalFreeText v) :
    validateStringField v = v := by
  rcases h with h | ⟨s, h, ht, hne⟩
  · rw [h]
    rfl
  · rw [h]
    simp only [validateStringField]
    rw [ht, if_neg hne]

/-- A legal accommodation slot is a fixed point of the accommodation
check. -/
theorem coerceAccommodation_fix (v : JsValue) (h : legalAccommodation v) :
    coerceAccommodation v = v := by
  rcases h with h | ⟨n, h, hm⟩
  · rw [h]
    rfl
  · rw [h]
    simp only [coerceAccommodation]
    rw [if_pos hm]

/-- A fully legal record is a fixed point of `validateFields`. -/
theorem validateFields_fixed (fn e c i r p a : JsValue)
    (hfn : legalFreeText fn) (he : legalFreeText e) (hc : legalFreeText c)
    (hi : legalInstitution i) (hr : legalDependent fieldOptions.roles i r)
    (hp : legalDependent fieldOptions.positions i p) (ha : legalAccommodation a) :
    validateFields (mkRecord fn e c i r p a) = mkRecord fn e c i r p a := by
  have hv : validateFields (mkRecord fn e c i r p a)
      = validateFieldsCore (mkRecord fn e c i r p a) := rfl
  rw [hv]
  unfold validateFieldsCore
  rw [jsGet_mkRecord_full_name, jsGet_mkRecord_email, jsGet_mkRecord_city,
    jsGet_mkRecord_accommodation]
  rw [validateStringField_fix fn hfn, validateStringField_fix e he,
    validateStringField_fix c hc, coerceAccommodation_fix a ha]
  rcases hi with hi | ⟨s, hi, hmem⟩
  · subst hi
    have hIA : institutionAccepted (mkRecord fn e c .null r p a) = none := by
      unfold institutionAccepted
      rw [jsGet_mkRecord_institution]
    have hrn : r = .null := by
      rcases hr with h | ⟨i', r', hcontra, _⟩
      · exact h
      · exact absurd hcontra (fun hh => JsValue.noConfusion hh)
    have hpn : p = .null := by
      rcases hp with h | ⟨i', p', hcontra, _⟩
      · exact h
      · exact absurd hcontra (fun hh => JsValue.noConfusion hh)
    subst hrn
    subst hpn
    have h1 : institutionField (mkRecord fn e c .null .null .null a) = .null := by
      unfold institutionField
      rw [hIA]
    have h2 : roleField (mkRecord fn e c .null .null .null a) = .null := by
      unfold roleField
      rw [hIA]
    have h3 : positionField (mkRecord fn e c .null .null .null a) = .null := by
      unfold positionField
      rw [hIA]
    rw [h1, h2, h3]
  · subst hi
    have hIA : institutionAccepted (mkRecord fn e c (.str s) r p a) = some s := by
      unfold institutionAccepted
      rw [jsGet_mkRecord_institution]
      simp only
      rw [if_pos hmem]
    have h1 : institutionField (mkRecord fn e c (.str s) r p a) = .str s := by
      unfold institutionField
      rw [hIA]
    have h2 : roleField (mkRecord fn e c (.str s) r p a) = r := by
      unfold roleField
      rw [hIA]
      simp only
      rw [jsGet_mkRecord_role]
      rcases hr with h | ⟨i', r', hi', hm', hr', hrm⟩
      · rw [h]
      · have his : i' = s := by
          injection hi' with hh
          exact hh.symm
        subst his
        subst hr'
        simp only
        rw [if_pos hrm]
    have h3 : positionField (mkRecord fn e c (.str s) r p a) = p := by
      unfold positionField
      rw [hIA]
      simp only
      rw [jsGet_mkRecord_position]
      rcases hp with h | ⟨i', p', hi', hm', hp', hpm⟩
      · rw [h]
      · have his : i' = s := by
          injection hi' with hh
          exact hh.symm
        subst his
        subst hp'
        simp only
        rw [if_pos hpm]
    rw [h1, h2, h3]

/-! ## Claim theorems: the Field Validator -/

/-- C1: for every input value `x` to the Field Validator (including
`undefined`, `null`, non-objects, arrays, and objects with extra, missing
or non-string keys), `validateFields x` is defined (the embedding is a
total function, so no exception is possible) and returns an object with
exactly the seven `FormFields` keys, each value `null` or schema-legal for
its field; a falsy or non-object input yields the all-null record. -/
theorem claim_C1_validateFields_total_legal (x : JsValue) :
    (∃ fn e c i r p a,
      validateFields x = mkRecord fn e c i r p a ∧
      legalFreeText fn ∧ legalFreeText e ∧ legalFreeText c ∧
      legalInstitution i ∧ legalDependent fieldOptions.roles i r ∧
      legalDependent fieldOptions.positions i p ∧ legalAccommodation a) ∧
    (jsTruthy x = false ∨ jsTypeof x ≠ "object" → validateFields x = allNullFields) :=
  ⟨validateFields_shape x, validateFields_guard x⟩

/-- Witness for C1 at the concrete malformed input `null`. -/
theorem claim_C1_witness :
    validateFields JsValue.null = allNullFields ∧
    ∃ fn e c i r p a, validateFields JsValue.null = mkRecord fn e c i r p a ∧
      legalFreeText fn ∧ legalFreeText e ∧ legalFreeText c ∧
      legalInstitution i ∧ legalDependent fieldOptions.roles i r ∧
      legalDependent fieldOptions.positions i p ∧ legalAccommodation a :=
  ⟨(claim_C1_validateFields_total_legal JsValue.null).2 (Or.inl rfl),
   (claim_C1_validateFields_total_legal JsValue.null).1⟩

/-- C2: whenever the institution check fails (`fields.institution` absent,
null, not a string, or a string outside the four allowed values — exactly
when `institutionAccepted x = none`), the output `role` and `position` are
both `null`, regardless of the supplied `role`/`position` values. -/
theorem claim_C2_dependent_fields_null (x : JsValue)
    (h : institutionAccepted x = none) :
    jsGet (validateFields x) "role" = JsValue.null ∧
    jsGet (validateFields x) "position" = JsValue.null := by
  cases hg : (!(jsTruthy x) || !(jsTypeof x == "object")) with
  | true =>
    have hv : validateFields x = allNullFields := by
      unfold validateFields
      rw [hg]
      rfl
    rw [hv]
    exact ⟨rfl, rfl⟩
  | false =>
    have hv : validateFields x = validateFieldsCore x := by
      unfold validateFields
      rw [hg]
      rfl
    rw [hv]
    unfold validateFieldsCore
    rw [jsGet_mkRecord_role, jsGet_mkRecord_position]
    unfold roleField positionField
    rw [h]
    exact ⟨rfl, rfl⟩

/-- Witness for C2: an object with an unknown institution and otherwise
schema-legal `role`/`position` proposals. -/
theorem claim_C2_witness :
    institutionAccepted (.obj [("institution", .str "Hogwarts"),
      ("role", .str "Management"), ("position", .str "Staff")]) = none ∧
    jsGet (validateFields (.obj [("institution", .str "Hogwarts"),
      ("role", .str "Management"), ("position", .str "Staff")])) "role" = JsValue.null ∧
    jsGet (validateFields (.obj [("institution", .str "Hogwarts"),
      ("role", .str "Management"), ("position", .str "Staff")])) "position" = JsValue.null :=
  ⟨rfl, claim_C2_dependent_fields_null _ rfl⟩

/-- C3 fails on the code: the non-integer numeric string `"3.5"` does not
resolve to `null`; `parseInt("3.5", 10)` prefix-parses it to `3`, which is
a catalog id, so the output accommodation is `3`. -/
theorem claim_C3_counterexample :
    jsGet (validateFields (.obj [("accommodation", .str "3.5")])) "accommodation"
      = JsValue.num 3 ∧
    JsValue.num 3 ≠ JsValue.null :=
  ⟨rfl, fun hc => JsValue.noConfusion hc⟩

/-- C3 amended: the output accommodation always equals the source's
coercion of the input accommodation value — a string is coerced with
`parseInt` (prefix parsing, so `"3.5"` coerces to `3`, not to `null`) and
accepted iff the coerced integer is a catalog id; every other outcome is
`null`, and every non-null output is a catalog id. -/
theorem claim_C3_amended_accommodation :
    (∀ x, jsGet (validateFields x) "accommodation"
        = coerceAccommodation (jsGet x "accommodation")) ∧
    coerceAccommodation (.str "3.5") = JsValue.num 3 ∧
    (∀ v, coerceAccommodation v = JsValue.null ∨
      ∃ n, coerceAccommodation v = JsValue.num n ∧ n ∈ fieldOptions.accommodations) := by
  refine ⟨?_, rfl, fun v => coerceAccommodation_legal v⟩
  intro x
  cases x with
  | undefined => rfl
  | null => rfl
  | bool b =>
    rw [validateFields_guard _ (Or.inr (by simp [jsTypeof]))]
    rfl
  | num n =>
    rw [validateFields_guard _ (Or.inr (by simp [jsTypeof]))]
    rfl
  | str s =>
    rw [validateFields_guard _ (Or.inr (by simp [jsTypeof]))]
    rfl
  | arr vs => rfl
  | obj ps => rfl

/-- C9: when the supplied accommodation is a string whose `parseInt`
prefix coercion yields a catalog id (for example `"3.5"`, `"3abc"` or
`" 3 "`), the validator accepts that id rather than rejecting to `null`. -/
theorem claim_C9_parseInt_prefix (x : JsValue) (s : String) (n : Int)
    (h1 : jsTruthy x = true) (h2 : jsTypeof x = "object")
    (hs : jsGet x "accommodation" = .str s)
    (hp : jsParseInt s = some n) (hm : n ∈ fieldOptions.accommodations) :
    jsGet (validateFields x) "accommodation" = JsValue.num n := by
  rw [validateFields_core_eq x h1 h2]
  unfold validateFieldsCore
  rw [jsGet_mkRecord_accommodation, hs]
  simp only [coerceAccommodation]
  rw [hp]
  simp only
  rw [if_pos hm]

/-- Witness for C9 at the concrete input `"3abc"`, whose digit prefix is
the catalog id 3. -/
theorem claim_C9_witness :
    jsGet (validateFields (.obj [("accommodation", .str "3abc")])) "accommodation"
      = JsValue.num 3 :=
  claim_C9_parseInt_prefix (.obj [("accommodation", .str "3abc")]) "3abc" 3
    rfl rfl rfl rfl (by decide)

/-- C8: `validateFields` is idempotent. -/
theorem claim_C8_validateFields_idempotent (x : JsValue) :
    validateFields (validateFields x) = validateFields x := by
  obtain ⟨fn, e, c, i, r, p, a, hv, hfn, he, hc, hi, hr, hp, ha⟩ := validateFields_shape x
  rw [hv]
  exact validateFields_fixed fn e c i r p a hfn he hc hi hr hp ha

/-- C10: `parseJsonResponse` returns `null` on every falsy input — the
empty string, `null`, and `undefined`. -/
theorem claim_C10_falsy_input :
    parseJsonResponseV (.str "") = some none ∧
    parseJsonResponseV JsValue.null = some none ∧
    parseJsonResponseV JsValue.undefined = some none :=
  ⟨rfl, rfl, rfl⟩

/-! ## Claim theorems: the Response Parser and the completion step -/

/-- C7: `parseJsonResponse` is total in the embedding (JavaScript
exceptions are `Option` failures, and both `JSON.parse` attempts sit inside
`try`/`catch`, so nothing escapes): for every text it either returns the
value produced by the candidate (fenced-block or whole-text) strategy or by
the brace-span strategy, or returns `null` when all attempts fail. -/
theorem claim_C7_parser_total_strategies (t : String) :
    parseJsonResponse t = none ∨
    ∃ v, parseJsonResponse t = some v ∧
      (jsonParseChars (candidateOf t) = some v ∨
       ∃ sub, braceSpan (candidateOf t) = some sub ∧ jsonParseChars sub = some v) := by
  unfold parseJsonResponse
  by_cases ht : t = ""
  · rw [if_pos ht]
    exact Or.inl rfl
  · rw [if_neg ht]
    cases h1 : jsonParseChars (candidateOf t) with
    | some v => exact Or.inr ⟨v, rfl, Or.inl rfl⟩
    | none =>
      cases h2 : braceSpan (candidateOf t) with
      | none => exact Or.inl rfl
      | some sub =>
        cases h3 : jsonParseChars sub with
        | none => exact Or.inl h3
        | some v => exact Or.inr ⟨v, h3, Or.inr ⟨sub, rfl, h3⟩⟩

/-- C5: when all parser strategies fail (`parseJsonResponse t = none`), the
completion step still produces an ordinary `result` event (the embedding is
a total function into `ResultEvent`, so no error event can replace it) with
`fields` equal to `null` and `message` equal to the trimmed raw text, or
the fallback apology when the trimmed text is empty. -/
theorem claim_C5_parse_failure_degrades (t : String)
    (h : parseJsonResponse t = none) :
    assistResult t =
      { fields := JsValue.null,
        message := .str (if jsTrim t = "" then fallbackMessage else jsTrim t) } := by
  have hp : parsedOrNull t = JsValue.null := by
    unfold parsedOrNull
    rw [h]
  unfold assistResult
  rw [hp]
  rfl

/-- Witness for C5: pure prose input. -/
theorem claim_C5_witness :
    parseJsonResponse "I do not understand" = none ∧
    assistResult "I do not understand" =
      { fields := JsValue.null, message := .str "I do not understand" } :=
  ⟨rfl, (claim_C5_parse_failure_degrades "I do not understand" rfl).trans (by rfl)⟩

/-- C4 fails on the code: the completion step does not test for the
presence of a `fields` key but for its truthiness.  On the accumulated text
`\x7b"fields":0,"message":"hi"\x7d` the parse succeeds and the parsed
object contains a `fields` key, yet the code takes the degraded branch:
it emits `fields: null` (not `validateFields 0`, the all-null record) and
the raw text as the message (not the parsed `"hi"`). -/
theorem claim_C4_counterexample :
    parseJsonResponse "\x7b\"fields\":0,\"message\":\"hi\"\x7d"
      = some (.obj [("fields", .num 0), ("message", .str "hi")]) ∧
    assistResult "\x7b\"fields\":0,\"message\":\"hi\"\x7d"
      = { fields := JsValue.null,
          message := .str "\x7b\"fields\":0,\"message\":\"hi\"\x7d" } ∧
    validateFields (JsValue.num 0) ≠ JsValue.null ∧
    JsValue.str "\x7b\"fields\":0,\"message\":\"hi\"\x7d" ≠ JsValue.str "hi" := by
  refine ⟨rfl, rfl, ?_, ?_⟩
  · intro h
    rw [show validateFields (JsValue.num 0) = allNullFields from rfl] at h
    simp [allNullFields, mkRecord] at h
  · intro h
    simp at h

/-- C4 amended: when parsing succeeds with a truthy value whose `fields`
member is truthy, the completion step emits the validated fields together
with the parsed message, or the default message when the parsed message is
falsy. -/
theorem claim_C4_amended_success_result (t : String) (parsed : JsValue)
    (hp : parseJsonResponse t = some parsed)
    (h1 : jsTruthy parsed = true)
    (h2 : jsTruthy (jsGet parsed "fields") = true) :
    assistResult t =
      { fields := validateFields (jsGet parsed "fields"),
        message :=
          if jsTruthy (jsGet parsed "message") then jsGet parsed "message"
          else .str defaultMessage } := by
  have hpn : parsedOrNull t = parsed := by
    unfold parsedOrNull
    rw [hp]
  unfold assistResult
  rw [hpn, h1, h2]
  rfl

/-- Witness for C4 amended, at a successful structured reply. -/
theorem claim_C4_witness :
    assistResult "\x7b\"fields\":\x7b\"city\":\"Paris\"\x7d,\"message\":\"ok\"\x7d"
      = { fields := mkRecord .null .null (.str "Paris") .null .null .null .null,
          message := .str "ok" } :=
  (claim_C4_amended_success_result
    "\x7b\"fields\":\x7b\"city\":\"Paris\"\x7d,\"message\":\"ok\"\x7d"
    (.obj [("fields", .obj [("city", .str "Paris")]), ("message", .str "ok")])
    rfl rfl rfl).trans (by rfl)

/-! ## Round-trip lemmas: decimal digits -/

theorem digitChar_isDigit (d : Nat) (h : d < 10) : (digitChar d).isDigit = true := by
  interval_cases d <;> decide

theorem digitChar_toNat (d : Nat) (h : d < 10) : (digitChar d).toNat = 48 + d := by
  interval_cases d <;> decide

theorem digitChar_sub (d : Nat) (h : d < 10) : (digitChar d).toNat - 48 = d := by
  interval_cases d <;> decide

theorem digitChar_ne_zero (d : Nat) (h1 : 1 ≤ d) (h2 : d < 10) : digitChar d ≠ '0' := by
  interval_cases d <;> decide

theorem isDigit_toNat (c : Char) (h : c.isDigit = true) :
    48 ≤ c.toNat ∧ c.toNat ≤ 57 := by
  simp [Char.isDigit] at h
  exact h

theorem natDigits_small (n : Nat) (h : n < 10) : natDigits n = [digitChar n] := by
  conv_lhs => unfold natDigits
  rw [if_pos h]

theorem natDigits_large (n : Nat) (h : ¬ n < 10) :
    natDigits n = natDigits (n / 10) ++ [digitChar (n % 10)] := by
  conv_lhs => unfold natDigits
  rw [if_neg h]

theorem natDigits_ne_nil (n : Nat) : natDigits n ≠ [] := by
  by_cases h : n < 10
  · rw [natDigits_small n h]
    simp
  · rw [natDigits_large n h]
    simp

theorem natDigits_all_digits (n : Nat) : ∀ c ∈ natDigits n, c.isDigit = true := by
  induction n using Nat.strong_induction_on with
  | _ n ih =>
    by_cases h : n < 10
    · rw [natDigits_small n h]
      intro c hc
      simp at hc
      subst hc
      exact digitChar_isDigit n h
    · rw [natDigits_large n h]
      intro c hc
      rcases List.mem_append.mp hc with hc | hc
      · exact ih (n / 10) (Nat.div_lt_self (by omega) (by omega)) c hc
      · simp at hc
        subst hc
        exact digitChar_isDigit (n % 10) (Nat.mod_lt n (by omega))

theorem digitsToNat_append_one (xs : List Char) (c : Char) :
    digitsToNat (xs ++ [c]) = digitsToNat xs * 10 + (c.toNat - 48) := by
  unfold digitsToNat
  rw [List.foldl_append]
  rfl

theorem digitsToNat_natDigits (n : Nat) : digitsToNat (natDigits n) = n := by
  induction n using Nat.strong_induction_on with
  | _ n ih =>
    by_cases h : n < 10
    · rw [natDigits_small n h]
      show 0 * 10 + ((digitChar n).toNat - 48) = n
      rw [digitChar_toNat n h]
      omega
    · rw [natDigits_large n h, digitsToNat_append_one,
        ih (n / 10) (Nat.div_lt_self (by omega) (by omega)),
        digitChar_sub (n % 10) (Nat.mod_lt n (by omega))]
      omega

theorem natDigits_head_ne_zero (n : Nat) :
    1 ≤ n → (natDigits n).head? ≠ some '0' := by
  induction n using Nat.strong_induction_on with
  | _ n ih =>
    intro hn hc
    by_cases h : n < 10
    · rw [natDigits_small n h] at hc
      simp at hc
      exact digitChar_ne_zero n hn h hc
    · rw [natDigits_large n h] at hc
      cases hx : natDigits (n / 10) with
      | nil => exact natDigits_ne_nil (n / 10) hx
      | cons a as =>
        rw [hx] at hc
        simp at hc
        apply ih (n / 10) (Nat.div_lt_self (by omega) (by omega)) (by
          have hd10 : 1 ≤ n / 10 := Nat.one_le_div_iff (by omega) |>.mpr (by omega)
          exact hd10)
        rw [hx]
        simp [hc]

/-! ## Round-trip lemmas: the number parser -/

theorem takeWhile_append_all (p : Char → Bool) (xs ys : List Char)
    (h : ∀ x ∈ xs, p x = true) :
    (xs ++ ys).takeWhile p = xs ++ ys.takeWhile p := by
  induction xs with
  | nil => simp
  | cons a as ih =>
    have ha := h a (List.mem_cons_self a as)
    simp [List.takeWhile_cons, ha, ih (fun x hx => h x (List.mem_cons_of_mem a hx))]

theorem dropWhile_append_all (p : Char → Bool) (xs ys : List Char)
    (h : ∀ x ∈ xs, p x = true) :
    (xs ++ ys).dropWhile p = ys.dropWhile p := by
  induction xs with
  | nil => simp
  | cons a as ih =>
    have ha := h a (List.mem_cons_self a as)
    simp [List.dropWhile_cons, ha, ih (fun x hx => h x (List.mem_cons_of_mem a hx))]

theorem takeWhile_nil_of_head (p : Char → Bool) (ys : List Char)
    (h : ∀ c, ys.head? = some c → p c = false) : ys.takeWhile p = [] := by
  cases ys with
  | nil => rfl
  | cons a as => simp [List.takeWhile_cons, h a rfl]

/-- The characters that may legally follow a rendered JSON value inside a
larger rendering: nothing, or a separator or closer. -/
def restSafe : List Char → Prop
  | [] => True
  | c :: _ => c = ',' ∨ c = '\x7d' ∨ c = ']'

theorem restSafe_head (rest : List Char) (h : restSafe rest) (c : Char)
    (hc : rest.head? = some c) :
    c.isDigit = false ∧ isJsonWs c = false ∧ c ≠ '-' := by
  cases rest with
  | nil => simp at hc
  | cons a as =>
    simp at hc
    subst hc
    rcases h with h | h | h <;> subst h <;> exact ⟨by decide, by decide, by decide⟩

theorem natDigits_take (m : Nat) (rest : List Char) (hr : restSafe rest) :
    (natDigits m ++ rest).takeWhile (fun c => c.isDigit) = natDigits m := by
  rw [takeWhile_append_all _ _ _ (natDigits_all_digits m),
    takeWhile_nil_of_head _ _ (fun c hc => (restSafe_head rest hr c hc).1)]
  simp

theorem natDigits_drop (m : Nat) (rest : List Char) (hr : restSafe rest) :
    (natDigits m ++ rest).dropWhile (fun c => c.isDigit) = rest := by
  rw [dropWhile_append_all _ _ _ (natDigits_all_digits m)]
  exact dropWhile_head_done _ _ (fun c hc => (restSafe_head rest hr c hc).1)

theorem natDigits_no_leading_zero (m : Nat) :
    ¬((natDigits m).head? = some '0' ∧ 1 < (natDigits m).length) := by
  rintro ⟨h1, h2⟩
  by_cases hm : 1 ≤ m
  · exact natDigits_head_ne_zero m hm h1
  · have hm0 : m = 0 := by omega
    subst hm0
    rw [natDigits_small 0 (by omega)] at h2
    simp at h2

theorem natDigits_head_not_minus (m : Nat) (rest : List Char) :
    ((natDigits m ++ rest).head? == some '-') = false := by
  cases hx : natDigits m with
  | nil => exact absurd hx (natDigits_ne_nil m)
  | cons a as =>
    have ha : a.isDigit = true := by
      apply natDigits_all_digits m
      rw [hx]
      exact List.mem_cons_self a as
    have hb := isDigit_toNat a ha
    have hne : a ≠ '-' := by
      intro hcontra
      subst hcontra
      simp at hb
    simp [hne]

theorem natDigits_isEmpty (m : Nat) : (natDigits m).isEmpty = false := by
  cases hx : natDigits m with
  | nil => exact absurd hx (natDigits_ne_nil m)
  | cons a as => rfl

theorem parseNum_natDigits (m : Nat) (rest : List Char) (hr : restSafe rest) :
    parseNum (natDigits m ++ rest) = some (.num (m : Int), rest) := by
  unfold parseNum
  simp only [natDigits_head_not_minus m rest, Bool.false_eq_true, if_false,
    natDigits_take m rest hr, natDigits_drop m rest hr, natDigits_isEmpty m]
  rw [if_neg (natDigits_no_leading_zero m)]
  cases rest with
  | nil => simp [digitsToNat_natDigits]
  | cons a as =>
    rcases hr with h | h | h <;> subst h <;> simp [digitsToNat_natDigits]

theorem parseNum_intChars (n : Int) (rest : List Char) (hr : restSafe rest) :
    parseNum (intChars n ++ rest) = some (.num n, rest) := by
  by_cases hn : n < 0
  · have hi : intChars n = '-' :: natDigits n.natAbs := by
      unfold intChars
      rw [if_pos hn]
    rw [hi]
    unfold parseNum
    simp only [List.cons_append, List.head?_cons, List.tail_cons, beq_self_eq_true, if_true,
      natDigits_take n.natAbs rest hr, natDigits_drop n.natAbs rest hr,
      natDigits_isEmpty n.natAbs, Bool.false_eq_true, if_false]
    rw [if_neg (natDigits_no_leading_zero n.natAbs)]
    have hv : -(((digitsToNat (natDigits n.natAbs)) : Nat) : Int) = n := by
      rw [digitsToNat_natDigits]
      omega
    cases rest with
    | nil => simp [hv]
    | cons a as =>
      rcases hr with h | h | h <;> subst h <;> simp [hv]
  · have hi : intChars n = natDigits n.natAbs := by
      unfold intChars
      rw [if_neg hn]
    have hv : ((n.natAbs : Nat) : Int) = n := by omega
    rw [hi, parseNum_natDigits n.natAbs rest hr, hv]

/-! ## Round-trip lemmas: the string parser -/

theorem hexVal_hexDigit (d : Nat) (h : d < 16) : hexVal (hexDigit d) = some d := by
  interval_cases d <;> decide

theorem hexQuad_hexDigits (t : Nat) (h : t < 32) :
    hexQuad '0' '0' (hexDigit (t / 16)) (hexDigit (t % 16)) = some t := by
  unfold hexQuad
  rw [show hexVal '0' = some 0 from rfl,
    hexVal_hexDigit (t / 16) (by omega), hexVal_hexDigit (t % 16) (by omega)]
  simp only
  congr 1
  omega

set_option maxHeartbeats 2000000 in
theorem parseStrChars_quote (tail : List Char) :
    parseStrChars ('"' :: tail) = some ([], tail) := by
  rw [parseStrChars.eq_def]
  simp

theorem parseStrChars_escapeChar (c : Char) (tail : List Char) :
    parseStrChars (escapeChar c ++ tail)
      = (parseStrChars tail).map (fun p => (c :: p.1, p.2)) := by
  by_cases hq : c = '"'
  · subst hq
    show parseStrChars ('\\' :: '"' :: tail) = _
    rw [parseStrChars.eq_def]
    simp
  by_cases hbs : c = '\\'
  · subst hbs
    show parseStrChars ('\\' :: '\\' :: tail) = _
    rw [parseStrChars.eq_def]
    simp
  by_cases h8 : c.toNat = 8
  · have hc : c = Char.ofNat 8 := by
      rw [← Char.ofNat_toNat c, h8]
    subst hc
    show parseStrChars ('\\' :: 'b' :: tail) = _
    rw [parseStrChars.eq_def]
    simp
  by_cases h9 : c.toNat = 9
  · have hc : c = '\t' := by
      rw [← Char.ofNat_toNat c, h9]
    subst hc
    show parseStrChars ('\\' :: 't' :: tail) = _
    rw [parseStrChars.eq_def]
    simp
  by_cases h10 : c.toNat = 10
  · have hc : c = '\n' := by
      rw [← Char.ofNat_toNat c, h10]
    subst hc
    show parseStrChars ('\\' :: 'n' :: tail) = _
    rw [parseStrChars.eq_def]
    simp
  by_cases h12 : c.toNat = 12
  · have hc : c = Char.ofNat 12 := by
      rw [← Char.ofNat_toNat c, h12]
    subst hc
    show parseStrChars ('\\' :: 'f' :: tail) = _
    rw [parseStrChars.eq_def]
    simp
  by_cases h13 : c.toNat = 13
  · have hc : c = '\r' := by
      rw [← Char.ofNat_toNat c, h13]
    subst hc
    show parseStrChars ('\\' :: 'r' :: tail) = _
    rw [parseStrChars.eq_def]
    simp
  by_cases h32 : c.toNat < 32
  · have he : escapeChar c =
        ['\\', 'u', '0', '0', hexDigit (c.toNat / 16), hexDigit (c.toNat % 16)] := by
      unfold escapeChar
      rw [if_neg hq, if_neg hbs, if_neg h8, if_neg h9, if_neg h10, if_neg h12, if_neg h13,
        if_pos h32]
    rw [he]
    show parseStrChars
        ('\\' :: 'u' :: '0' :: '0' :: hexDigit (c.toNat / 16) :: hexDigit (c.toNat % 16) :: tail)
        = _
    rw [parseStrChars.eq_def]
    simp only
    rw [hexQuad_hexDigits c.toNat h32]
    have hns : ¬(55296 ≤ c.toNat ∧ c.toNat ≤ 57343) := by omega
    simp [hns, Char.ofNat_toNat]
  · have he : escapeChar c = [c] := by
      unfold escapeChar
      rw [if_neg hq, if_neg hbs, if_neg h8, if_neg h9, if_neg h10, if_neg h12, if_neg h13,
        if_neg h32]
    rw [he]
    show parseStrChars (c :: tail) = _
    rw [parseStrChars.eq_def]
    simp only
    rw [if_neg hq, if_neg hbs, if_neg h32]

theorem parseStrChars_escChars (cs rest : List Char) :
    parseStrChars (escChars cs ++ '"' :: rest) = some (cs, rest) := by
  induction cs with
  | nil =>
    show parseStrChars ('"' :: rest) = some ([], rest)
    exact parseStrChars_quote rest
  | cons c cs ih =>
    have he : escChars (c :: cs) = escapeChar c ++ escChars cs := by
      simp [escChars]
    rw [he, List.append_assoc, parseStrChars_escapeChar, ih]
    rfl

/-! ## Round-trip lemmas: dispatch of the value parser -/

theorem jsize_pos (o : JsValue) : 1 ≤ jsize o := by
  cases o <;> simp [jsize]

set_option maxHeartbeats 2000000 in
theorem parseVal_null (f : Nat) (rest : List Char) :
    parseVal (f + 1) ('n' :: 'u' :: 'l' :: 'l' :: rest) = some (.null, rest) := by
  rw [parseVal.eq_def]
  simp [isJsonWs]

theorem parseVal_true (f : Nat) (rest : List Char) :
    parseVal (f + 1) ('t' :: 'r' :: 'u' :: 'e' :: rest) = some (.bool true, rest) := by
  rw [parseVal.eq_def]
  simp [isJsonWs]

theorem parseVal_false (f : Nat) (rest : List Char) :
    parseVal (f + 1) ('f' :: 'a' :: 'l' :: 's' :: 'e' :: rest) = some (.bool false, rest) := by
  rw [parseVal.eq_def]
  simp [isJsonWs]

theorem parseVal_minus (f : Nat) (cs : List Char) :
    parseVal (f + 1) ('-' :: cs) = parseNum ('-' :: cs) := by
  rw [parseVal.eq_def]
  simp [isJsonWs]

theorem parseVal_digit (f : Nat) (c : Char) (cs : List Char)
    (h1 : 48 ≤ c.toNat) (h2 : c.toNat ≤ 57) :
    parseVal (f + 1) (c :: cs) = parseNum (c :: cs) := by
  have hv : c.toNat = 48 ∨ c.toNat = 49 ∨ c.toNat = 50 ∨ c.toNat = 51 ∨ c.toNat = 52 ∨
      c.toNat = 53 ∨ c.toNat = 54 ∨ c.toNat = 55 ∨ c.toNat = 56 ∨ c.toNat = 57 := by omega
  rcases hv with hv | hv | hv | hv | hv | hv | hv | hv | hv | hv
  · have hc : c = '0' := by rw [← Char.ofNat_toNat c, hv]
    subst hc
    rw [parseVal.eq_def]
    simp [isJsonWs]
  · have hc : c = '1' := by rw [← Char.ofNat_toNat c, hv]
    subst hc
    rw [parseVal.eq_def]
    simp [isJsonWs]
  · have hc : c = '2' := by rw [← Char.ofNat_toNat c, hv]
    subst hc
    rw [parseVal.eq_def]
    simp [isJsonWs]
  · have hc : c = '3' := by rw [← Char.ofNat_toNat c, hv]
    subst hc
    rw [parseVal.eq_def]
    simp [isJsonWs]
  · have hc : c = '4' := by rw [← Char.ofNat_toNat c, hv]
    subst hc
    rw [parseVal.eq_def]
    simp [isJsonWs]
  · have hc : c = '5' := by rw [← Char.ofNat_toNat c, hv]
    subst hc
    rw [parseVal.eq_def]
    simp [isJsonWs]
  · have hc : c = '6' := by rw [← Char.ofNat_toNat c, hv]
    subst hc
    rw [parseVal.eq_def]
    simp [isJsonWs]
  · have hc : c = '7' := by rw [← Char.ofNat_toNat c, hv]
    subst hc
    rw [parseVal.eq_def]
    simp [isJsonWs]
  · have hc : c = '8' := by rw [← Char.ofNat_toNat c, hv]
    subst hc
    rw [parseVal.eq_def]
    simp [isJsonWs]
  · have hc : c = '9' := by rw [← Char.ofNat_toNat c, hv]
    subst hc
    rw [parseVal.eq_def]
    simp [isJsonWs]

theorem parseVal_num (f : Nat) (n : Int) (rest : List Char) (hr : restSafe rest) :
    parseVal (f + 1) (intChars n ++ rest) = some (.num n, rest) := by
  by_cases hn : n < 0
  · have hi : intChars n = '-' :: natDigits n.natAbs := by
      unfold intChars
      rw [if_pos hn]
    have hl : intChars n ++ rest = '-' :: (natDigits n.natAbs ++ rest) := by
      rw [hi]
      simp
    rw [hl, parseVal_minus, ← List.cons_append, ← hi, parseNum_intChars n rest hr]
  · have hi : intChars n = natDigits n.natAbs := by
      unfold intChars
      rw [if_neg hn]
    cases hx : natDigits n.natAbs with
    | nil => exact absurd hx (natDigits_ne_nil n.natAbs)
    | cons a as =>
      have ha : a.isDigit = true := by
        apply natDigits_all_digits n.natAbs
        rw [hx]
        exact List.mem_cons_self a as
      obtain ⟨hb1, hb2⟩ := isDigit_toNat a ha
      have hl : intChars n ++ rest = a :: (as ++ rest) := by
        rw [hi, hx]
        simp
      rw [hl, parseVal_digit f a (as ++ rest) hb1 hb2, ← List.cons_append, ← hx, ← hi,
        parseNum_intChars n rest hr]

theorem parseVal_str (f : Nat) (body r s : List Char)
    (h : parseStrChars body = some (s, r)) :
    parseVal (f + 1) ('"' :: body) = some (.str ⟨s⟩, r) := by
  rw [parseVal.eq_def]
  simp [isJsonWs, h]

theorem parseVal_arr_items (f : Nat) (body r : List Char) (vs : List JsValue)
    (h : parseItems f body = some (vs, r)) :
    parseVal (f + 1) ('[' :: body) = some (.arr vs, r) := by
  rw [parseVal.eq_def]
  simp [isJsonWs, h]

theorem parseVal_obj_members (f : Nat) (body r : List Char) (ps : List (String × JsValue))
    (h : parseMembers f body = some (ps, r)) :
    parseVal (f + 1) ('\x7b' :: body) = some (.obj ps, r) := by
  rw [parseVal.eq_def]
  simp [isJsonWs, h]

theorem parseVal_rbracket (fuel : Nat) (r : List Char) :
    parseVal fuel (']' :: r) = none := by
  cases fuel with
  | zero => rfl
  | succ f =>
    rw [parseVal.eq_def]
    simp [isJsonWs, parseNum]

theorem parseVal_rbrace (fuel : Nat) (r : List Char) :
    parseVal fuel ('\x7d' :: r) = none := by
  cases fuel with
  | zero => rfl
  | succ f =>
    rw [parseVal.eq_def]
    simp [isJsonWs, parseNum]

theorem parseItems_rbracket (fuel : Nat) (r : List Char) :
    parseItems fuel (']' :: r) = none := by
  cases fuel with
  | zero => rfl
  | succ f =>
    rw [parseItems.eq_def]
    simp [parseVal_rbracket]

theorem parseMembers_rbrace (fuel : Nat) (r : List Char) :
    parseMembers fuel ('\x7d' :: r) = none := by
  cases fuel with
  | zero => rfl
  | succ f =>
    rw [parseMembers.eq_def]
    simp [isJsonWs]

theorem parseVal_arr_empty (f : Nat) (rest : List Char) :
    parseVal (f + 1) ('[' :: ']' :: rest) = some (.arr [], rest) := by
  rw [parseVal.eq_def]
  simp [isJsonWs, parseItems_rbracket]

theorem parseVal_obj_empty (f : Nat) (rest : List Char) :
    parseVal (f + 1) ('\x7b' :: '\x7d' :: rest) = some (.obj [], rest) := by
  rw [parseVal.eq_def]
  simp [isJsonWs, parseMembers_rbrace]

/-! ## The round-trip theorem -/

theorem parse_roundtrip (fuel : Nat) :
    (∀ o rest, noUndef o = true → jsize o ≤ fuel → restSafe rest →
      parseVal fuel (stringifyChars o ++ rest) = some (o, rest)) ∧
    (∀ vs rest, noUndefItems vs = true → vs ≠ [] → jsizeItems vs ≤ fuel → restSafe rest →
      parseItems fuel (stringifyItems vs ++ ']' :: rest) = some (vs, rest)) ∧
    (∀ ps rest, noUndefMembers ps = true → ps ≠ [] → jsizeMembers ps ≤ fuel → restSafe rest →
      parseMembers fuel (stringifyMembers ps ++ '\x7d' :: rest) = some (ps, rest)) := by
  induction fuel with
  | zero =>
    refine ⟨fun o rest hnu hsz hrs => absurd hsz (by have := jsize_pos o; omega),
      fun vs rest hnu hne hsz hrs => ?_, fun ps rest hnu hne hsz hrs => ?_⟩
    · cases vs with
      | nil => exact absurd rfl hne
      | cons v vs =>
        exfalso
        have h1 : jsizeItems (v :: vs) = 1 + jsize v + jsizeItems vs := by simp [jsizeItems]
        omega
    · cases ps with
      | nil => exact absurd rfl hne
      | cons p ps =>
        exfalso
        obtain ⟨k, v⟩ := p
        have h1 : jsizeMembers ((k, v) :: ps) = 1 + jsize v + jsizeMembers ps := by
          simp [jsizeMembers]
        omega
  | succ f ih =>
    obtain ⟨ihV, ihI, ihM⟩ := ih
    refine ⟨fun o rest hnu hsz hrs => ?_, fun vs rest hnu hne hsz hrs => ?_,
      fun ps rest hnu hne hsz hrs => ?_⟩
    · cases o with
      | undefined => simp [noUndef] at hnu
      | null =>
        rw [show stringifyChars JsValue.null = 'n' :: 'u' :: 'l' :: 'l' :: [] from by
          simp [stringifyChars]]
        simp only [List.cons_append, List.nil_append]
        exact parseVal_null f rest
      | bool b =>
        cases b with
        | true =>
          rw [show stringifyChars (JsValue.bool true) = 't' :: 'r' :: 'u' :: 'e' :: [] from by
            simp [stringifyChars]]
          simp only [List.cons_append, List.nil_append]
          exact parseVal_true f rest
        | false =>
          rw [show stringifyChars (JsValue.bool false)
              = 'f' :: 'a' :: 'l' :: 's' :: 'e' :: [] from by simp [stringifyChars]]
          simp only [List.cons_append, List.nil_append]
          exact parseVal_false f rest
      | num n =>
        rw [show stringifyChars (JsValue.num n) = intChars n from by simp [stringifyChars]]
        exact parseVal_num f n rest hrs
      | str s =>
        rw [show stringifyChars (JsValue.str s) = '"' :: (escChars s.data ++ ['"']) from by
          simp [stringifyChars]]
        rw [List.cons_append, List.append_assoc, List.singleton_append]
        rw [parseVal_str f _ rest s.data (parseStrChars_escChars s.data rest)]
      | arr vs =>
        cases vs with
        | nil =>
          rw [show stringifyChars (JsValue.arr []) = '[' :: (stringifyItems [] ++ [']']) from by
            simp [stringifyChars]]
          rw [show stringifyItems ([] : List JsValue) = [] from by simp [stringifyItems]]
          simp only [List.nil_append, List.cons_append, List.singleton_append]
          exact parseVal_arr_empty f rest
        | cons v vs' =>
          have hsz' : jsizeItems (v :: vs') ≤ f := by
            have h1 : jsize (JsValue.arr (v :: vs')) = 1 + jsizeItems (v :: vs') := by
              simp [jsize]
            omega
          have hnu' : noUndefItems (v :: vs') = true := by simpa [noUndef] using hnu
          rw [show stringifyChars (JsValue.arr (v :: vs'))
              = '[' :: (stringifyItems (v :: vs') ++ [']']) from by simp [stringifyChars]]
          rw [List.cons_append, List.append_assoc, List.singleton_append]
          exact parseVal_arr_items f _ rest (v :: vs')
            (ihI (v :: vs') rest hnu' (by simp) hsz' hrs)
      | obj ps =>
        cases ps with
        | nil =>
          rw [show stringifyChars (JsValue.obj []) = '\x7b' :: (stringifyMembers [] ++ ['\x7d'])
            from by simp [stringifyChars]]
          rw [show stringifyMembers ([] : List (String × JsValue)) = [] from by
            simp [stringifyMembers]]
          simp only [List.nil_append, List.cons_append, List.singleton_append]
          exact parseVal_obj_empty f rest
        | cons p ps' =>
          have hsz' : jsizeMembers (p :: ps') ≤ f := by
            have h1 : jsize (JsValue.obj (p :: ps')) = 1 + jsizeMembers (p :: ps') := by
              simp [jsize]
            omega
          have hnu' : noUndefMembers (p :: ps') = true := by simpa [noUndef] using hnu
          rw [show stringifyChars (JsValue.obj (p :: ps'))
              = '\x7b' :: (stringifyMembers (p :: ps') ++ ['\x7d']) from by
            simp [stringifyChars]]
          rw [List.cons_append, List.append_assoc, List.singleton_append]
          exact parseVal_obj_members f _ rest (p :: ps')
            (ihM (p :: ps') rest hnu' (by simp) hsz' hrs)
    · cases vs with
      | nil => exact absurd rfl hne
      | cons v vs' =>
        have hnu2 : noUndef v = true ∧ noUndefItems vs' = true := by
          simpa [noUndefItems, Bool.and_eq_true] using hnu
        cases vs' with
        | nil =>
          rw [show stringifyItems [v] = stringifyChars v from by simp [stringifyItems]]
          have hV : parseVal f (stringifyChars v ++ ']' :: rest) = some (v, ']' :: rest) := by
            apply ihV v (']' :: rest) hnu2.1 ?_ (Or.inr (Or.inr rfl))
            have h1 : jsizeItems [v] = 1 + jsize v + jsizeItems [] := by simp [jsizeItems]
            have h2 : jsizeItems ([] : List JsValue) = 0 := by simp [jsizeItems]
            omega
          rw [parseItems.eq_def]
          simp [hV, isJsonWs]
        | cons w vs'' =>
          have hszv : jsize v ≤ f := by
            have h1 : jsizeItems (v :: w :: vs'') = 1 + jsize v + jsizeItems (w :: vs'') := by
              simp [jsizeItems]
            omega
          have hszw : jsizeItems (w :: vs'') ≤ f := by
            have h1 : jsizeItems (v :: w :: vs'') = 1 + jsize v + jsizeItems (w :: vs'') := by
              simp [jsizeItems]
            omega
          rw [show stringifyItems (v :: w :: vs'')
              = stringifyChars v ++ ',' :: stringifyItems (w :: vs'') from by
            simp [stringifyItems]]
          rw [List.append_assoc, List.cons_append]
          have hV : parseVal f
              (stringifyChars v ++ ',' :: (stringifyItems (w :: vs'') ++ ']' :: rest))
              = some (v, ',' :: (stringifyItems (w :: vs'') ++ ']' :: rest)) :=
            ihV v _ hnu2.1 hszv (Or.inl rfl)
          have hI : parseItems f (stringifyItems (w :: vs'') ++ ']' :: rest)
              = some (w :: vs'', rest) :=
            ihI (w :: vs'') rest hnu2.2 (by simp) hszw hrs
          rw [parseItems.eq_def]
          simp [hV, isJsonWs, hI]
    · cases ps with
      | nil => exact absurd rfl hne
      | cons p ps' =>
        obtain ⟨k, v⟩ := p
        have hnu2 : noUndef v = true ∧ noUndefMembers ps' = true := by
          simpa [noUndefMembers, Bool.and_eq_true] using hnu
        cases ps' with
        | nil =>
          rw [show stringifyMembers [(k, v)]
              = '"' :: (escChars k.data ++ '"' :: ':' :: stringifyChars v) from by
            simp [stringifyMembers]]
          have hszv : jsize v ≤ f := by
            have h1 : jsizeMembers [(k, v)] = 1 + jsize v + jsizeMembers [] := by
              simp [jsizeMembers]
            have h2 : jsizeMembers ([] : List (String × JsValue)) = 0 := by
              simp [jsizeMembers]
            omega
          have hstr : parseStrChars
              (escChars k.data ++ '"' :: (':' :: (stringifyChars v ++ '\x7d' :: rest)))
              = some (k.data, ':' :: (stringifyChars v ++ '\x7d' :: rest)) :=
            parseStrChars_escChars k.data (':' :: (stringifyChars v ++ '\x7d' :: rest))
          have hV : parseVal f (stringifyChars v ++ '\x7d' :: rest)
              = some (v, '\x7d' :: rest) :=
            ihV v ('\x7d' :: rest) hnu2.1 hszv (Or.inr (Or.inl rfl))
          rw [parseMembers.eq_def]
          simp [isJsonWs, hstr, hV]
        | cons q ps'' =>
          have hszv : jsize v ≤ f := by
            have h1 : jsizeMembers ((k, v) :: q :: ps'')
                = 1 + jsize v + jsizeMembers (q :: ps'') := by simp [jsizeMembers]
            omega
          have hszq : jsizeMembers (q :: ps'') ≤ f := by
            have h1 : jsizeMembers ((k, v) :: q :: ps'')
                = 1 + jsize v + jsizeMembers (q :: ps'') := by simp [jsizeMembers]
            omega
          rw [show stringifyMembers ((k, v) :: q :: ps'')
              = ('"' :: (escChars k.data ++ '"' :: ':' :: stringifyChars v))
                ++ ',' :: stringifyMembers (q :: ps'') from by simp [stringifyMembers]]
          have hstr : parseStrChars
              (escChars k.data ++ '"' ::
                (':' :: (stringifyChars v ++
                  ',' :: (stringifyMembers (q :: ps'') ++ '\x7d' :: rest))))
              = some (k.data, ':' :: (stringifyChars v ++
                  ',' :: (stringifyMembers (q :: ps'') ++ '\x7d' :: rest))) :=
            parseStrChars_escChars k.data _
          have hV : parseVal f
              (stringifyChars v ++ ',' :: (stringifyMembers (q :: ps'') ++ '\x7d' :: rest))
              = some (v, ',' :: (stringifyMembers (q :: ps'') ++ '\x7d' :: rest)) :=
            ihV v _ hnu2.1 hszv (Or.inl rfl)
          have hM : parseMembers f (stringifyMembers (q :: ps'') ++ '\x7d' :: rest)
              = some (q :: ps'', rest) :=
            ihM (q :: ps'') rest hnu2.2 (by simp) hszq hrs
          rw [parseMembers.eq_def]
          simp [isJsonWs, hstr, hV, hM]

/-! ## Size bound: the rendering is at least as long as the parser fuel
needs -/

theorem jsize_le_length_all (bound : Nat) :
    (∀ o, jsize o ≤ bound → jsize o ≤ (stringifyChars o).length) ∧
    (∀ vs, vs ≠ [] → jsizeItems vs ≤ bound →
      jsizeItems vs ≤ (stringifyItems vs).length + 1) ∧
    (∀ ps, ps ≠ [] → jsizeMembers ps ≤ bound →
      jsizeMembers ps ≤ (stringifyMembers ps).length + 1) := by
  induction bound with
  | zero =>
    refine ⟨fun o hsz => absurd hsz (by have := jsize_pos o; omega),
      fun vs hne hsz => ?_, fun ps hne hsz => ?_⟩
    · cases vs with
      | nil => exact absurd rfl hne
      | cons v vs =>
        exfalso
        have h1 : jsizeItems (v :: vs) = 1 + jsize v + jsizeItems vs := by simp [jsizeItems]
        omega
    · cases ps with
      | nil => exact absurd rfl hne
      | cons p ps =>
        exfalso
        obtain ⟨k, v⟩ := p
        have h1 : jsizeMembers ((k, v) :: ps) = 1 + jsize v + jsizeMembers ps := by
          simp [jsizeMembers]
        omega
  | succ f ih =>
    obtain ⟨ihV, ihI, ihM⟩ := ih
    refine ⟨fun o hsz => ?_, fun vs hne hsz => ?_, fun ps hne hsz => ?_⟩
    · cases o with
      | undefined => simp [jsize, stringifyChars]
      | null => simp [jsize, stringifyChars]
      | bool b => cases b <;> simp [jsize, stringifyChars]
      | num n =>
        have h1 : jsize (JsValue.num n) = 1 := by simp [jsize]
        have h2 : stringifyChars (JsValue.num n) = intChars n := by simp [stringifyChars]
        have h3 : intChars n ≠ [] := by
          unfold intChars
          by_cases hn : n < 0
          · rw [if_pos hn]
            simp
          · rw [if_neg hn]
            exact natDigits_ne_nil n.natAbs
        have h4 := List.length_pos.mpr h3
        rw [h1, h2]
        omega
      | str s => simp [jsize, stringifyChars]
      | arr vs =>
        cases vs with
        | nil => simp [jsize, jsizeItems, stringifyChars, stringifyItems]
        | cons v vs' =>
          have h1 : jsize (JsValue.arr (v :: vs')) = 1 + jsizeItems (v :: vs') := by
            simp [jsize]
          have h2 : jsizeItems (v :: vs') ≤ (stringifyItems (v :: vs')).length + 1 := by
            apply ihI (v :: vs') (by simp)
            omega
          have h3 : (stringifyChars (JsValue.arr (v :: vs'))).length
              = (stringifyItems (v :: vs')).length + 2 := by
            rw [show stringifyChars (JsValue.arr (v :: vs'))
                = '[' :: (stringifyItems (v :: vs') ++ [']']) from by simp [stringifyChars]]
            simp
          omega
      | obj ps =>
        cases ps with
        | nil => simp [jsize, jsizeMembers, stringifyChars, stringifyMembers]
        | cons p ps' =>
          have h1 : jsize (JsValue.obj (p :: ps')) = 1 + jsizeMembers (p :: ps') := by
            simp [jsize]
          have h2 : jsizeMembers (p :: ps') ≤ (stringifyMembers (p :: ps')).length + 1 := by
            apply ihM (p :: ps') (by simp)
            omega
          have h3 : (stringifyChars (JsValue.obj (p :: ps'))).length
              = (stringifyMembers (p :: ps')).length + 2 := by
            rw [show stringifyChars (JsValue.obj (p :: ps'))
                = '\x7b' :: (stringifyMembers (p :: ps') ++ ['\x7d']) from by
              simp [stringifyChars]]
            simp
          omega
    · cases vs with
      | nil => exact absurd rfl hne
      | cons v vs' =>
        have h1 : jsizeItems (v :: vs') = 1 + jsize v + jsizeItems vs' := by simp [jsizeItems]
        cases vs' with
        | nil =>
          have h2 : jsize v ≤ (stringifyChars v).length := by
            apply ihV v
            have h3 : jsizeItems ([] : List JsValue) = 0 := by simp [jsizeItems]
            omega
          have h4 : stringifyItems [v] = stringifyChars v := by simp [stringifyItems]
          have h5 : jsizeItems ([] : List JsValue) = 0 := by simp [jsizeItems]
          rw [h4]
          omega
        | cons w vs'' =>
          have h2 : jsize v ≤ (stringifyChars v).length := by
            apply ihV v
            have h6 : jsizeItems (w :: vs'') = 1 + jsize w + jsizeItems vs'' := by
              simp [jsizeItems]
            have := jsize_pos w
            omega
          have h7 : jsizeItems (w :: vs'') ≤ (stringifyItems (w :: vs'')).length + 1 := by
            apply ihI (w :: vs'') (by simp)
            have := jsize_pos v
            omega
          have h8 : (stringifyItems (v :: w :: vs'')).length
              = (stringifyChars v).length + 1 + (stringifyItems (w :: vs'')).length := by
            rw [show stringifyItems (v :: w :: vs'')
                = stringifyChars v ++ ',' :: stringifyItems (w :: vs'') from by
              simp [stringifyItems]]
            simp
            omega
          omega
    · cases ps with
      | nil => exact absurd rfl hne
      | cons p ps' =>
        obtain ⟨k, v⟩ := p
        have h1 : jsizeMembers ((k, v) :: ps') = 1 + jsize v + jsizeMembers ps' := by
          simp [jsizeMembers]
        cases ps' with
        | nil =>
          have h2 : jsize v ≤ (stringifyChars v).length := by
            apply ihV v
            have h3 : jsizeMembers ([] : List (String × JsValue)) = 0 := by simp [jsizeMembers]
            omega
          have h4 : (stringifyMembers [(k, v)]).length
              = (escChars k.data).length + 3 + (stringifyChars v).length := by
            rw [show stringifyMembers [(k, v)]
                = '"' :: (escChars k.data ++ '"' :: ':' :: stringifyChars v) from by
              simp [stringifyMembers]]
            simp
            omega
          have h5 : jsizeMembers ([] : List (String × JsValue)) = 0 := by simp [jsizeMembers]
          omega
        | cons q ps'' =>
          obtain ⟨k2, v2⟩ := q
          have h2 : jsize v ≤ (stringifyChars v).length := by
            apply ihV v
            have h6 : jsizeMembers ((k2, v2) :: ps'') = 1 + jsize v2 + jsizeMembers ps'' := by
              simp [jsizeMembers]
            have := jsize_pos v2
            omega
          have h7 : jsizeMembers ((k2, v2) :: ps'')
              ≤ (stringifyMembers ((k2, v2) :: ps'')).length + 1 := by
            apply ihM ((k2, v2) :: ps'') (by simp)
            have := jsize_pos v
            omega
          have h8 : (stringifyMembers ((k, v) :: (k2, v2) :: ps'')).length
              = (escChars k.data).length + 4 + (stringifyChars v).length
                + (stringifyMembers ((k2, v2) :: ps'')).length := by
            rw [show stringifyMembers ((k, v) :: (k2, v2) :: ps'')
                = ('"' :: (escChars k.data ++ '"' :: ':' :: stringifyChars v))
                  ++ ',' :: stringifyMembers ((k2, v2) :: ps'') from by
              simp [stringifyMembers]]
            simp
            omega
          omega

theorem jsize_le_length (o : JsValue) : jsize o ≤ (stringifyChars o).length :=
  (jsize_le_length_all (jsize o)).1 o (Nat.le_refl _)

/-! ## Boundary characters of a rendering -/

theorem jsWsChar_digit (c : Char) (h1 : 48 ≤ c.toNat) (h2 : c.toNat ≤ 57) :
    jsWsChar c = false := by
  simp [jsWsChar]
  omega

theorem mem_of_getLast? {l : List Char} {a : Char} (h : l.getLast? = some a) : a ∈ l := by
  induction l with
  | nil => simp at h
  | cons x xs ih =>
    cases hx : xs with
    | nil =>
      rw [hx] at h
      simp at h
      simp [h]
    | cons y ys =>
      rw [hx] at h ih
      rw [List.getLast?_cons_cons] at h
      exact List.mem_cons_of_mem x (ih h)

/-- Every rendering is nonempty and starts with a non-whitespace
character. -/
theorem stringify_head (o : JsValue) :
    ∃ c cs, stringifyChars o = c :: cs ∧ jsWsChar c = false := by
  cases o with
  | undefined => exact ⟨'n', ['u', 'l', 'l'], by simp [stringifyChars], by decide⟩
  | null => exact ⟨'n', ['u', 'l', 'l'], by simp [stringifyChars], by decide⟩
  | bool b =>
    cases b with
    | true => exact ⟨'t', ['r', 'u', 'e'], by simp [stringifyChars], by decide⟩
    | false => exact ⟨'f', ['a', 'l', 's', 'e'], by simp [stringifyChars], by decide⟩
  | num n =>
    by_cases hn : n < 0
    · refine ⟨'-', natDigits n.natAbs, ?_, by decide⟩
      rw [show stringifyChars (JsValue.num n) = intChars n from by simp [stringifyChars]]
      unfold intChars
      rw [if_pos hn]
    · cases hx : natDigits n.natAbs with
      | nil => exact absurd hx (natDigits_ne_nil n.natAbs)
      | cons a as =>
        have ha : a.isDigit = true := by
          apply natDigits_all_digits n.natAbs
          rw [hx]
          exact List.mem_cons_self a as
        obtain ⟨hb1, hb2⟩ := isDigit_toNat a ha
        refine ⟨a, as, ?_, jsWsChar_digit a hb1 hb2⟩
        rw [show stringifyChars (JsValue.num n) = intChars n from by simp [stringifyChars]]
        unfold intChars
        rw [if_neg hn, hx]
  | str s => exact ⟨'"', escChars s.data ++ ['"'], by simp [stringifyChars], by decide⟩
  | arr vs => exact ⟨'[', stringifyItems vs ++ [']'], by simp [stringifyChars], by decide⟩
  | obj ps =>
    exact ⟨'\x7b', stringifyMembers ps ++ ['\x7d'], by simp [stringifyChars], by decide⟩

/-- Every rendering ends with a non-whitespace character. -/
theorem stringify_last (o : JsValue) (d : Char)
    (h : (stringifyChars o).getLast? = some d) : jsWsChar d = false := by
  cases o with
  | undefined =>
    rw [show stringifyChars JsValue.undefined = 'n' :: 'u' :: 'l' :: 'l' :: [] from by
      simp [stringifyChars]] at h
    simp at h
    subst h
    decide
  | null =>
    rw [show stringifyChars JsValue.null = 'n' :: 'u' :: 'l' :: 'l' :: [] from by
      simp [stringifyChars]] at h
    simp at h
    subst h
    decide
  | bool b =>
    cases b with
    | true =>
      rw [show stringifyChars (JsValue.bool true) = 't' :: 'r' :: 'u' :: 'e' :: [] from by
        simp [stringifyChars]] at h
      simp at h
      subst h
      decide
    | false =>
      rw [show stringifyChars (JsValue.bool false) = 'f' :: 'a' :: 'l' :: 's' :: 'e' :: [] from by
        simp [stringifyChars]] at h
      simp at h
      subst h
      decide
  | num n =>
    rw [show stringifyChars (JsValue.num n) = intChars n from by simp [stringifyChars]] at h
    have hd : d ∈ intChars n → d.isDigit = true ∨ d = '-' := by
      intro hm
      unfold intChars at hm
      by_cases hn : n < 0
      · rw [if_pos hn] at hm
        rcases List.mem_cons.mp hm with hm | hm
        · exact Or.inr hm
        · exact Or.inl (natDigits_all_digits n.natAbs d hm)
      · rw [if_neg hn] at hm
        exact Or.inl (natDigits_all_digits n.natAbs d hm)
    rcases hd (mem_of_getLast? h) with hdig | hminus
    · obtain ⟨hb1, hb2⟩ := isDigit_toNat d hdig
      exact jsWsChar_digit d hb1 hb2
    · subst hminus
      decide
  | str s =>
    rw [show stringifyChars (JsValue.str s) = ('"' :: escChars s.data) ++ ['"'] from by
      simp [stringifyChars]] at h
    rw [List.getLast?_concat] at h
    cases h
    decide
  | arr vs =>
    rw [show stringifyChars (JsValue.arr vs) = ('[' :: stringifyItems vs) ++ [']'] from by
      simp [stringifyChars]] at h
    rw [List.getLast?_concat] at h
    cases h
    decide
  | obj ps =>
    rw [show stringifyChars (JsValue.obj ps) = ('\x7b' :: stringifyMembers ps) ++ ['\x7d'] from by
      simp [stringifyChars]] at h
    rw [List.getLast?_concat] at h
    cases h
    decide

/-! ## The fenced-block and brace-span regex lemmas -/

theorem fenceAt_cons_false (c : Char) (cs : List Char) (hc : c ≠ backtickChar) :
    fenceAt (c :: cs) = false := by
  simp [fenceAt, hc]

theorem ht_cons_eq (c : Char) (cs : List Char) :
    hasTriple (c :: cs) = (fenceAt (c :: cs) || hasTriple cs) := by
  simp [hasTriple]

theorem ht_no_bt (ys : List Char) (h : ∀ c ∈ ys, c ≠ backtickChar) :
    hasTriple ys = false := by
  induction ys with
  | nil => simp [hasTriple]
  | cons c cs ih =>
    rw [ht_cons_eq, fenceAt_cons_false c cs (h c (List.mem_cons_self c cs))]
    simp only [Bool.false_or]
    exact ih (fun x hx => h x (List.mem_cons_of_mem c hx))

theorem ht_append_safe (xs ys : List Char) (hxs : hasTriple xs = false)
    (hys : hasTriple ys = false)
    (hhead : ∀ c, ys.head? = some c → c ≠ backtickChar) :
    hasTriple (xs ++ ys) = false := by
  induction xs with
  | nil => simpa using hys
  | cons x xs ih =>
    rw [ht_cons_eq] at hxs
    simp only [Bool.or_eq_false_iff] at hxs
    obtain ⟨hf, hx2⟩ := hxs
    rw [List.cons_append, ht_cons_eq]
    simp only [Bool.or_eq_false_iff]
    refine ⟨?_, ih hx2⟩
    cases xs with
    | nil =>
      cases hy : ys with
      | nil => simp [fenceAt]
      | cons y ys' =>
        have hyne := hhead y (by rw [hy]; rfl)
        simp [fenceAt, List.take, hyne]
    | cons a xs' =>
      cases xs' with
      | nil =>
        cases hy : ys with
        | nil => simp [fenceAt]
        | cons y ys' =>
          have hyne := hhead y (by rw [hy]; rfl)
          simp [fenceAt, List.take, hyne]
      | cons b xs'' =>
        have heq : fenceAt (x :: (a :: b :: xs'' ++ ys)) = fenceAt (x :: a :: b :: xs'') := by
          simp [fenceAt, List.take]
        rw [heq]
        exact hf

theorem findClose_append (xs ys : List Char)
    (h : hasTriple (xs ++ [backtickChar, backtickChar]) = false) :
    findClose (xs ++ backtickChar :: backtickChar :: backtickChar :: ys)
      = some (xs, ys) := by
  induction xs with
  | nil =>
    simp [findClose, fenceAt, List.take]
  | cons x xs ih =>
    rw [List.cons_append, ht_cons_eq] at h
    simp only [Bool.or_eq_false_iff] at h
    obtain ⟨hf, h2⟩ := h
    have htake : (xs ++ [backtickChar, backtickChar]).take 2
        = (xs ++ backtickChar :: backtickChar :: backtickChar :: ys).take 2 := by
      rw [List.take_append_eq_append_take, List.take_append_eq_append_take]
      congr 1
      have hk : 2 - xs.length = 0 ∨ 2 - xs.length = 1 ∨ 2 - xs.length = 2 := by omega
      rcases hk with hk | hk | hk <;> rw [hk] <;> simp
    have hfa : fenceAt (x :: (xs ++ backtickChar :: backtickChar :: backtickChar :: ys))
        = false := by
      have h3 : fenceAt (x :: (xs ++ [backtickChar, backtickChar])) = false := hf
      simp only [fenceAt, List.take_succ_cons] at h3 ⊢
      rw [← htake]
      exact h3
    rw [List.cons_append, findClose.eq_def]
    simp only [hfa, Bool.false_eq_true, if_false]
    rw [ih h2]

theorem cbg_cons_nb (c : Char) (cs : List Char) (hc : c ≠ backtickChar) :
    codeBlockGroup (c :: cs) = codeBlockGroup cs := by
  rw [codeBlockGroup.eq_def]
  simp [fenceAt_cons_false c cs hc]

theorem cbg_none (cs : List Char) (h : hasTriple cs = false) :
    codeBlockGroup cs = none := by
  induction cs with
  | nil => rfl
  | cons c cs ih =>
    rw [ht_cons_eq] at h
    simp only [Bool.or_eq_false_iff] at h
    obtain ⟨hf, h2⟩ := h
    rw [codeBlockGroup.eq_def]
    simp only [hf, Bool.false_eq_true, if_false]
    exact ih h2

theorem dropTrailingWhile_id (p : Char → Bool) (l : List Char)
    (h : ∀ c, l.getLast? = some c → p c = false) : dropTrailingWhile p l = l := by
  induction l with
  | nil => rfl
  | cons x xs ih =>
    cases hx : xs with
    | nil =>
      subst hx
      have hlx := h x (by simp)
      rw [dropTrailingWhile_cons_nil p x [] rfl, if_neg (by simp [hlx])]
    | cons y ys =>
      subst hx
      have h' : ∀ c, (y :: ys).getLast? = some c → p c = false := by
        intro c hc
        exact h c (by rw [List.getLast?_cons_cons]; exact hc)
      exact dropTrailingWhile_cons_cons p x y (y :: ys) ys (ih h')

theorem trimChars_id (l : List Char)
    (hhead : ∀ c, l.head? = some c → jsWsChar c = false)
    (hlast : ∀ c, l.getLast? = some c → jsWsChar c = false) : trimChars l = l := by
  unfold trimChars
  rw [dropWhile_head_done _ _ hhead, dropTrailingWhile_id _ _ hlast]

theorem trim_group (S : List Char) (c0 : Char) (S' : List Char) (hS : S = c0 :: S')
    (hws : jsWsChar c0 = false)
    (hlast : ∀ c, S.getLast? = some c → jsWsChar c = false) :
    trimChars (S ++ ['\n']) = S := by
  unfold trimChars
  rw [dropWhile_head_done _ _ (by
    intro c hc
    rw [hS] at hc
    simp at hc
    subst hc
    exact hws)]
  rw [show S ++ ['\n'] = S ++ ['\n'] from rfl, dropTrailingWhile_snoc, if_pos (by decide),
    dropTrailingWhile_id _ _ hlast]

theorem upToLastRB_cons (c : Char) (cs : List Char) :
    upToLastRB (c :: cs) =
      match upToLastRB cs with
      | some r => some (c :: r)
      | none => if c = '\x7d' then some ['\x7d'] else none := rfl

theorem upToLastRB_none (ys : List Char) (h : ∀ c ∈ ys, c ≠ '\x7d') :
    upToLastRB ys = none := by
  induction ys with
  | nil => rfl
  | cons y ys' ih =>
    rw [upToLastRB_cons, ih (fun x hx => h x (List.mem_cons_of_mem y hx))]
    simp [h y (List.mem_cons_self y ys')]

theorem upToLastRB_append_none (xs ys : List Char) (h : ∀ c ∈ ys, c ≠ '\x7d') :
    upToLastRB (xs ++ ys) = upToLastRB xs := by
  induction xs with
  | nil =>
    simp only [List.nil_append]
    rw [upToLastRB_none ys h]
    rfl
  | cons x xs ih =>
    rw [List.cons_append, upToLastRB_cons, ih, ← upToLastRB_cons]

theorem upToLastRB_snoc_rb (xs : List Char) :
    upToLastRB (xs ++ ['\x7d']) = some (xs ++ ['\x7d']) := by
  induction xs with
  | nil => rfl
  | cons x xs ih =>
    rw [List.cons_append, upToLastRB_cons, ih]

theorem braceSpan_cons_nb (c : Char) (cs : List Char) (hc : c ≠ '\x7b') :
    braceSpan (c :: cs) = braceSpan cs := by
  rw [braceSpan.eq_def]
  simp [hc]

/-! ## The round trip through the response parser -/

theorem parseVal_b (f : Nat) (cs : List Char) :
    parseVal (f + 1) ('b' :: cs) = none := by
  rw [parseVal.eq_def]
  simp [isJsonWs, parseNum]

theorem parse_of_stringify (o : JsValue) (hnu : noUndef o = true) :
    jsonParseChars (stringifyChars o) = some o := by
  have h := (parse_roundtrip ((stringifyChars o).length + 1)).1 o [] hnu
    (by have := jsize_le_length o; omega) (by simp [restSafe])
  rw [List.append_nil] at h
  unfold jsonParseChars
  rw [h]
  simp

theorem trim_stringify (o : JsValue) :
    trimChars (stringifyChars o) = stringifyChars o := by
  obtain ⟨c, cs, heq, hws⟩ := stringify_head o
  refine trimChars_id _ (fun d hd => ?_) (fun d hd => stringify_last o d hd)
  rw [heq] at hd
  simp at hd
  subst hd
  exact hws

theorem jsonStringify_ne_empty (o : JsValue) : jsonStringify o ≠ "" := by
  obtain ⟨c, cs, heq, _⟩ := stringify_head o
  intro h
  have h2 : stringifyChars o = [] := congrArg String.data h
  rw [heq] at h2
  exact List.noConfusion h2

theorem candidate_plain (o : JsValue) (hbt : hasTriple (stringifyChars o) = false) :
    candidateOf (jsonStringify o) = stringifyChars o := by
  unfold candidateOf
  rw [show (jsonStringify o).data = stringifyChars o from rfl, cbg_none _ hbt]
  exact trim_stringify o

theorem rt_plain (o : JsValue) (hnu : noUndef o = true)
    (hbt : hasTriple (stringifyChars o) = false) :
    parseJsonResponse (jsonStringify o) = some o := by
  unfold parseJsonResponse
  rw [if_neg (jsonStringify_ne_empty o), candidate_plain o hbt, parse_of_stringify o hnu]

theorem fenceAt_triple (l : List Char) :
    fenceAt (backtickChar :: backtickChar :: backtickChar :: l) = true := by
  simp [fenceAt, List.take]

theorem dropJsonTag_json (l : List Char) :
    dropJsonTag ('j' :: 's' :: 'o' :: 'n' :: l) = l := by
  unfold dropJsonTag
  rw [if_pos (by simp [List.take])]
  simp [List.drop]

theorem dropWhile_stringify (o : JsValue) (t : List Char) :
    (stringifyChars o ++ t).dropWhile jsWsChar = stringifyChars o ++ t := by
  obtain ⟨c, cs, heq, hws⟩ := stringify_head o
  rw [heq, List.cons_append]
  simp [List.dropWhile_cons, hws]

theorem candidate_fenced (o : JsValue) (hbt : hasTriple (stringifyChars o) = false) :
    candidateOf ("Sure! ```json\n" ++ jsonStringify o ++ "\n```")
      = stringifyChars o := by
  have hdata : ("Sure! ```json\n" ++ jsonStringify o ++ "\n```").data
      = "Sure! ```json\n".data ++ stringifyChars o ++ "\n```".data := by
    rw [String.data_append, String.data_append]
    rfl
  have hdec : ("Sure! ```json\n" : String).data
      = 'S' :: 'u' :: 'r' :: 'e' :: '!' :: ' ' :: backtickChar :: backtickChar ::
        backtickChar :: 'j' :: 's' :: 'o' :: 'n' :: '\n' :: [] := by decide
  have htail : ("\n```" : String).data
      = '\n' :: backtickChar :: backtickChar :: backtickChar :: [] := by decide
  unfold candidateOf
  rw [hdata, hdec, htail]
  simp only [List.cons_append, List.nil_append]
  rw [cbg_cons_nb _ _ (by decide), cbg_cons_nb _ _ (by decide), cbg_cons_nb _ _ (by decide),
    cbg_cons_nb _ _ (by decide), cbg_cons_nb _ _ (by decide), cbg_cons_nb _ _ (by decide)]
  rw [codeBlockGroup.eq_def]
  simp only [fenceAt_triple, if_true]
  rw [show (backtickChar :: backtickChar :: 'j' :: 's' :: 'o' :: 'n' :: '\n' ::
      (stringifyChars o ++ '\n' :: backtickChar :: backtickChar :: backtickChar :: [])).drop 2
      = 'j' :: 's' :: 'o' :: 'n' :: '\n' ::
        (stringifyChars o ++ '\n' :: backtickChar :: backtickChar :: backtickChar :: [])
    from rfl]
  rw [dropJsonTag_json]
  rw [List.dropWhile_cons, if_pos (by decide)]
  rw [show stringifyChars o ++ '\n' :: backtickChar :: backtickChar :: backtickChar :: []
      = (stringifyChars o ++ ['\n']) ++ backtickChar :: backtickChar :: backtickChar :: []
    from by simp]
  rw [show ((stringifyChars o ++ ['\n']) ++
        backtickChar :: backtickChar :: backtickChar :: []).dropWhile jsWsChar
      = (stringifyChars o ++ ['\n']) ++ backtickChar :: backtickChar :: backtickChar :: []
    from by
      rw [List.append_assoc]
      exact dropWhile_stringify o _]
  rw [findClose_append _ _ (by
    rw [List.append_assoc]
    refine ht_append_safe _ _ hbt (by decide) ?_
    intro c hc
    simp at hc
    subst hc
    decide)]
  obtain ⟨c, cs, heq, hws⟩ := stringify_head o
  refine trim_group (stringifyChars o) c cs heq hws (fun d hd => stringify_last o d hd)

theorem braceSpan_lb (cs : List Char) :
    braceSpan ('\x7b' :: cs) =
      match upToLastRB cs with
      | some r => some ('\x7b' :: r)
      | none => braceSpan cs := by
  rw [braceSpan.eq_def]
  simp

theorem jsonParseChars_b (cs : List Char) : jsonParseChars ('b' :: cs) = none := by
  unfold jsonParseChars
  rw [List.length_cons, parseVal_b]

theorem rt_fenced (o : JsValue) (hnu : noUndef o = true)
    (hbt : hasTriple (stringifyChars o) = false) :
    parseJsonResponse ("Sure! ```json\n" ++ jsonStringify o ++ "\n```") = some o := by
  unfold parseJsonResponse
  rw [if_neg (by
    intro h
    have h2 := congrArg String.length h
    rw [String.length_append, String.length_append] at h2
    have hl1 : ("Sure! ```json\n" : String).length = 14 := rfl
    have hl2 : ("\n```" : String).length = 4 := rfl
    have hl3 : ("" : String).length = 0 := rfl
    omega)]
  rw [candidate_fenced o hbt, parse_of_stringify o hnu]

theorem rt_prose (ps : List (String × JsValue)) (hnu : noUndef (JsValue.obj ps) = true)
    (hbt : hasTriple (stringifyChars (JsValue.obj ps)) = false) :
    parseJsonResponse ("blah " ++ jsonStringify (JsValue.obj ps) ++ " blah")
      = some (JsValue.obj ps) := by
  have hS : stringifyChars (JsValue.obj ps)
      = '\x7b' :: (stringifyMembers ps ++ ['\x7d']) := by
    simp [stringifyChars]
  have hdata : ("blah " ++ jsonStringify (JsValue.obj ps) ++ " blah").data
      = 'b' :: 'l' :: 'a' :: 'h' :: ' ' ::
        (stringifyChars (JsValue.obj ps) ++ (' ' :: 'b' :: 'l' :: 'a' :: 'h' :: [])) := by
    rw [String.data_append, String.data_append]
    rfl
  have hT : hasTriple ("blah " ++ jsonStringify (JsValue.obj ps) ++ " blah").data
      = false := by
    rw [hdata]
    rw [show 'b' :: 'l' :: 'a' :: 'h' :: ' ' ::
        (stringifyChars (JsValue.obj ps) ++ (' ' :: 'b' :: 'l' :: 'a' :: 'h' :: []))
      = ('b' :: 'l' :: 'a' :: 'h' :: ' ' :: stringifyChars (JsValue.obj ps)) ++
        (' ' :: 'b' :: 'l' :: 'a' :: 'h' :: []) from by simp]
    refine ht_append_safe _ _ ?_ (by decide) ?_
    · refine ht_append_safe ['b', 'l', 'a', 'h', ' ']
        (stringifyChars (JsValue.obj ps)) (by decide) hbt ?_
      intro c hc
      rw [hS] at hc
      simp at hc
      subst hc
      decide
    · intro c hc
      simp at hc
      subst hc
      decide
  have hcand : candidateOf ("blah " ++ jsonStringify (JsValue.obj ps) ++ " blah")
      = 'b' :: 'l' :: 'a' :: 'h' :: ' ' ::
        (stringifyChars (JsValue.obj ps) ++ (' ' :: 'b' :: 'l' :: 'a' :: 'h' :: [])) := by
    unfold candidateOf
    rw [cbg_none _ hT, hdata]
    refine trimChars_id _ (fun d hd => by simp at hd; subst hd; decide) (fun d hd => ?_)
    rw [show 'b' :: 'l' :: 'a' :: 'h' :: ' ' ::
        (stringifyChars (JsValue.obj ps) ++ (' ' :: 'b' :: 'l' :: 'a' :: 'h' :: []))
      = ('b' :: 'l' :: 'a' :: 'h' :: ' ' :: stringifyChars (JsValue.obj ps)) ++
        (' ' :: 'b' :: 'l' :: 'a' :: 'h' :: []) from by simp] at hd
    rw [List.getLast?_append] at hd
    simp at hd
    subst hd
    decide
  unfold parseJsonResponse
  rw [if_neg (by
    intro h
    have h2 := congrArg String.length h
    rw [String.length_append, String.length_append] at h2
    have hl1 : ("blah " : String).length = 5 := rfl
    have hl2 : (" blah" : String).length = 5 := rfl
    have hl3 : ("" : String).length = 0 := rfl
    omega)]
  rw [hcand, jsonParseChars_b]
  rw [hS]
  rw [show 'l' :: 'a' :: 'h' :: ' ' ::
      (('\x7b' :: (stringifyMembers ps ++ ['\x7d'])) ++
        (' ' :: 'b' :: 'l' :: 'a' :: 'h' :: []))
    = 'l' :: 'a' :: 'h' :: ' ' :: '\x7b' ::
      ((stringifyMembers ps ++ ['\x7d']) ++ (' ' :: 'b' :: 'l' :: 'a' :: 'h' :: []))
    from by simp]
  rw [braceSpan_cons_nb _ _ (by decide), braceSpan_cons_nb _ _ (by decide),
    braceSpan_cons_nb _ _ (by decide), braceSpan_cons_nb _ _ (by decide),
    braceSpan_cons_nb _ _ (by decide), braceSpan_lb]
  rw [upToLastRB_append_none _ _ (by intro c hc; fin_cases hc <;> decide),
    upToLastRB_snoc_rb]
  simp only []
  rw [← hS, parse_of_stringify _ hnu]

/-- C6 fails on the code as stated: the round trip is not unconditional.
For the object with the single member `"a"` bound to a string of six
backticks, `JSON.stringify` renders a text containing triple backticks, so
the fenced-block regex of `parseJsonResponse` matches inside the string
literal, the extracted candidate is empty, every parse attempt fails, and
the call returns `null` instead of the original object. -/
theorem claim_C6_counterexample :
    noUndef (JsValue.obj [("a", JsValue.str "``````")]) = true ∧
    parseJsonResponse (jsonStringify (JsValue.obj [("a", JsValue.str "``````")])) = none :=
  ⟨rfl, rfl⟩

/-- C6 amended: for every JSON-serializable value `o` (no `undefined`
anywhere, so `JSON.stringify` loses nothing) whose rendering contains no
three consecutive backticks, `parseJsonResponse (JSON.stringify o) = o`;
the same holds with the rendering wrapped in a prose-preceded
triple-backtick `json` fence, and, when `o` is an object, with prose on
both sides (the brace-span strategy). -/
theorem claim_C6_amended_roundtrip (o : JsValue)
    (hser : noUndef o = true)
    (hbt : hasTriple (stringifyChars o) = false) :
    parseJsonResponse (jsonStringify o) = some o ∧
    parseJsonResponse ("Sure! ```json\n" ++ jsonStringify o ++ "\n```") = some o ∧
    (∀ ps, o = JsValue.obj ps →
      parseJsonResponse ("blah " ++ jsonStringify o ++ " blah") = some o) := by
  refine ⟨rt_plain o hser hbt, rt_fenced o hser hbt, fun ps hps => ?_⟩
  subst hps
  exact rt_prose ps hser hbt

/-- Witness for the amended C6 at the object with one numeric member. -/
theorem claim_C6_witness :
    noUndef (JsValue.obj [("a", JsValue.num 1)]) = true ∧
    hasTriple (stringifyChars (JsValue.obj [("a", JsValue.num 1)])) = false ∧
    parseJsonResponse (jsonStringify (JsValue.obj [("a", JsValue.num 1)]))
      = some (JsValue.obj [("a", JsValue.num 1)]) ∧
    parseJsonResponse ("Sure! ```json\n" ++ jsonStringify (JsValue.obj [("a", JsValue.num 1)])
        ++ "\n```")
      = some (JsValue.obj [("a", JsValue.num 1)]) ∧
    parseJsonResponse ("blah " ++ jsonStringify (JsValue.obj [("a", JsValue.num 1)]) ++ " blah")
      = some (JsValue.obj [("a", JsValue.num 1)]) := by
  have h1 : noUndef (JsValue.obj [("a", JsValue.num 1)]) = true := by
    simp [noUndef, noUndefMembers]
  have h2 : hasTriple (stringifyChars (JsValue.obj [("a", JsValue.num 1)])) = false := by
    simp [stringifyChars, stringifyMembers, escChars, escapeChar, intChars, natDigits_small]
    decide
  exact ⟨h1, h2,
    (claim_C6_amended_roundtrip (JsValue.obj [("a", JsValue.num 1)]) h1 h2).1,
    (claim_C6_amended_roundtrip (JsValue.obj [("a", JsValue.num 1)]) h1 h2).2.1,
    (claim_C6_amended_roundtrip (JsValue.obj [("a", JsValue.num 1)]) h1 h2).2.2
      [("a", JsValue.num 1)] rfl⟩
